import Mathlib

/-!
Verification of `scripts/patch_android_manifest.py`, a command-line tool that
patches a generated Android manifest: it inserts two `uses-permission`
elements, removes the `usesCleartextTraffic` attribute and sets the
`networkSecurityConfig` attribute on the `application` element, writes a
companion `network_security_config.xml` resource file, re-indents the tree
and rewrites the manifest with a guaranteed trailing newline.

The XML element tree mirrors `xml.etree.ElementTree`: every element has a
tag, an ordered attribute dictionary (keys of namespaced attributes are
spelled `\x7buri\x7dlocal`), optional `text`, a list of children and an
optional `tail` (the character data following the element's end tag).
-/

set_option maxHeartbeats 1000000

mutual

inductive Elem : Type where
  | mk (tag : String) (attrib : List (String × String)) (text : Option String)
       (children : ElemList) (tail : Option String)
  deriving DecidableEq

inductive ElemList : Type where
  | nil : ElemList
  | cons : Elem → ElemList → ElemList
  deriving DecidableEq

end

def Elem.tag : Elem → String
  | .mk t _ _ _ _ => t

def Elem.attrib : Elem → List (String × String)
  | .mk _ a _ _ _ => a

def Elem.text : Elem → Option String
  | .mk _ _ x _ _ => x

def Elem.children : Elem → ElemList
  | .mk _ _ _ c _ => c

def Elem.tail : Elem → Option String
  | .mk _ _ _ _ t => t

def Elem.withChildren : Elem → ElemList → Elem
  | .mk t a x _ tl, c => .mk t a x c tl

def Elem.withTail : Elem → Option String → Elem
  | .mk t a x c _, tl => .mk t a x c tl

def Elem.withAttrib : Elem → List (String × String) → Elem
  | .mk t _ x c tl, a => .mk t a x c tl

def ElemList.toList : ElemList → List Elem
  | .nil => []
  | .cons c rest => c :: rest.toList

def ElemList.ofList : List Elem → ElemList
  | [] => .nil
  | c :: rest => .cons c (ofList rest)

theorem ElemList.toList_ofList (l : List Elem) : (ElemList.ofList l).toList = l := by
  induction l with
  | nil => rfl
  | cons c rest ih => simp [ElemList.ofList, ElemList.toList, ih]

theorem ElemList.ofList_toList : (l : ElemList) → ElemList.ofList l.toList = l
  | .nil => rfl
  | .cons c rest => by simp [ElemList.ofList, ElemList.toList, ofList_toList rest]

theorem Elem.withChildren_children (e : Elem) : e.withChildren e.children = e := by
  cases e; rfl

/-! ### Attribute dictionary operations

Python's `dict` preserves insertion order; `elem.get` looks a key up,
`elem.set` updates the value in place when the key exists and appends
otherwise, `del elem.attrib[k]` removes the key. -/

def attribGet (a : List (String × String)) (k : String) : Option String :=
  match a.find? (fun p => p.1 == k) with
  | some p => some p.2
  | none => none

def attribHas (a : List (String × String)) (k : String) : Bool :=
  (a.find? (fun p => p.1 == k)).isSome

def attribSet (a : List (String × String)) (k v : String) : List (String × String) :=
  if attribHas a k then a.map (fun p => if p.1 == k then (k, v) else p)
  else a ++ [(k, v)]

def attribDel (a : List (String × String)) (k : String) : List (String × String) :=
  a.filter (fun p => !(p.1 == k))

/-! ### Constants of the script -/

def ANDROID_NS : String := "http://schemas.android.com/apk/res/android"

def NS_ATTR : String := "\x7b" ++ ANDROID_NS ++ "\x7d"

def NETWORK_SECURITY_CONFIG : String :=
  "<?xml version=\"1.0\" encoding=\"utf-8\"?>\n<network-security-config>\n    <domain-config cleartextTrafficPermitted=\"true\">\n        <domain>127.0.0.1</domain>\n        <domain>localhost</domain>\n    </domain-config>\n</network-security-config>\n"

/-! ### The four tree-patching functions of the script -/

/-- `ensure_permission(manifest, permission)`: add the requested
`uses-permission` if it is not already present; a new element is inserted
at the index of the first `application` child (at the end if none). -/
def ensure_permission (manifest : Elem) (permission : String) : Elem :=
  let android_name := NS_ATTR ++ "name"
  if manifest.children.toList.any
      (fun node => node.tag == "uses-permission" &&
        attribGet node.attrib android_name == some permission) then
    manifest
  else
    let new_node : Elem := .mk "uses-permission" [(android_name, permission)] none .nil none
    let children := manifest.children.toList
    let insert_index :=
      (children.findIdx? (fun node => node.tag == "application")).getD children.length
    manifest.withChildren
      (ElemList.ofList (children.take insert_index ++ new_node :: children.drop insert_index))

/-- Replace the first element satisfying `p` by its image under `f`
(the functional rendering of mutating the element `find` returned). -/
def replaceFirst (p : Elem → Bool) (f : Elem → Elem) : List Elem → List Elem
  | [] => []
  | c :: rest => if p c then f c :: rest else c :: replaceFirst p f rest

/-- The in-place update `ensure_application_attribute` performs on the
`application` element it found: set the namespaced attribute when its
current value differs. -/
def ensureAttrFn (attributeName value : String) (application : Elem) : Elem :=
  let android_attr := NS_ATTR ++ attributeName
  if !(attribGet application.attrib android_attr == some value) then
    application.withAttrib (attribSet application.attrib android_attr value)
  else application

/-- The in-place update `remove_application_attribute` performs on the
`application` element it found: delete the namespaced attribute if present. -/
def removeAttrFn (attributeName : String) (application : Elem) : Elem :=
  let android_attr := NS_ATTR ++ attributeName
  if attribHas application.attrib android_attr then
    application.withAttrib (attribDel application.attrib android_attr)
  else application

def NO_APPLICATION_MSG : String :=
  "Manifest does not contain an <application> element to patch"

/-- `ensure_application_attribute(manifest, attribute, value)`. -/
def ensure_application_attribute (manifest : Elem) (attributeName value : String) :
    Except String Elem :=
  match manifest.children.toList.find? (fun node => node.tag == "application") with
  | none => .error NO_APPLICATION_MSG
  | some _ =>
      .ok (manifest.withChildren (ElemList.ofList
        (replaceFirst (fun node => node.tag == "application")
          (ensureAttrFn attributeName value) manifest.children.toList)))

/-- `remove_application_attribute(manifest, attribute)`. -/
def remove_application_attribute (manifest : Elem) (attributeName : String) :
    Except String Elem :=
  match manifest.children.toList.find? (fun node => node.tag == "application") with
  | none => .error NO_APPLICATION_MSG
  | some _ =>
      .ok (manifest.withChildren (ElemList.ofList
        (replaceFirst (fun node => node.tag == "application")
          (removeAttrFn attributeName) manifest.children.toList)))

/-- The four tree mutations `main` applies, in order. -/
def patchTree (t : Elem) : Except String Elem := do
  let t1 := ensure_permission t "android.permission.INTERNET"
  let t2 := ensure_permission t1 "android.permission.ACCESS_NETWORK_STATE"
  let t3 ← remove_application_attribute t2 "usesCleartextTraffic"
  let t4 ← ensure_application_attribute t3 "networkSecurityConfig" "@xml/network_security_config"
  pure t4

/-- `ensure_network_security_config`, as a function of the current content of
`res/xml/network_security_config.xml` (`none` = the file does not exist).
Returns the content after the call together with whether a write happened. -/
def ensure_network_security_config (current : Option String) : Option String × Bool :=
  if current == some NETWORK_SECURITY_CONFIG then (current, false)
  else (some NETWORK_SECURITY_CONFIG, true)

/-! ### `ET.indent(tree, space="    ")`

Python's `xml.etree.ElementTree.indent`: for every element that has
children, its `text` is set to the child indentation when it is `None`,
empty or whitespace-only, every child whose `tail` is `None`, empty or
whitespace-only gets the child indentation as tail, and after the loop the
last child's tail is replaced by the parent-level indentation when it is
whitespace-only.  Elements without children are not descended into. -/

def isPySpace (c : Char) : Bool :=
  c == ' ' || c == '\t' || c == '\n' || c == '\r' || c == '\x0b' || c == '\x0c'

/-- `not s or not s.strip()`: the optional string is `None`, empty, or
whitespace-only. -/
def blankOpt : Option String → Bool
  | none => true
  | some s => s.data.all isPySpace

/-- `not s.strip()` on a plain string. -/
def blankStr (s : String) : Bool := s.data.all isPySpace

/-- `"\n" + level * space`: the indentation string for a nesting level. -/
def indentation (space : String) (level : Nat) : String :=
  "\n" ++ String.join (List.replicate level space)

/-- The fix-up after the loop: overwrite the last child's tail with the
parent-level indentation when it is whitespace-only. -/
def dedentLast (ind : String) : ElemList → ElemList
  | .nil => .nil
  | .cons c .nil => .cons (if blankOpt c.tail then c.withTail (some ind) else c) .nil
  | .cons c rest => .cons c (dedentLast ind rest)

mutual

/-- `_indent_children(elem, level)`; only ever applied to elements that
have children (the caller guards on `len(elem)`). -/
def indentChildren (space : String) (level : Nat) : Elem → Elem
  | .mk tag attrib text children tail =>
    let child_indentation := indentation space (level + 1)
    let text' := if blankOpt text then some child_indentation else text
    let cs := indentLoop space (level + 1) child_indentation children
    .mk tag attrib text' (dedentLast (indentation space level) cs) tail

/-- The `for child in elem` loop body: recurse into children that have
children themselves, then set blank tails to the child indentation. -/
def indentLoop (space : String) (child_level : Nat) (child_indentation : String) :
    ElemList → ElemList
  | .nil => .nil
  | .cons c rest =>
    let c1 := if c.children.toList.isEmpty then c else indentChildren space child_level c
    let c2 := if blankOpt c1.tail then c1.withTail (some child_indentation) else c1
    .cons c2 (indentLoop space child_level child_indentation rest)

end

/-- `ET.indent(tree, space="    ")` as invoked by `main` (a no-op when the
root has no children). -/
def indentTree (t : Elem) : Elem :=
  if t.children.toList.isEmpty then t else indentChildren "    " 0 t

/-! ### Trailing-newline normalization

After `tree.write`, `main` reopens the file in binary mode and appends a
single `b"\n"` unless the file is empty or its last byte is already a
newline.  In UTF-8 the last byte is `0x0A` exactly when the last character
is `'\n'`. -/

def ensureTrailingNewline (s : String) : String :=
  if s.data = [] then s
  else if s.data.getLast? = some '\n' then s
  else s ++ "\n"

/-! ### Failure modes and their messages

Every failure raises `SystemExit(message)`, which prints the message and
terminates the process with exit status 1. -/

inductive FailKind : Type where
  | manifestNotFound : FailKind
  | parseFailed (exc : String) : FailKind
  | noApplication : FailKind
  | readConfigError (exc : String) : FailKind
  | writeConfigError (exc : String) : FailKind
  | writeManifestError (exc : String) : FailKind
  deriving DecidableEq

/-- The message handed to `SystemExit` at each failure site, as a function
of the manifest path, the path of the companion config file and the
underlying exception text. -/
def failMessage (manifestPath configPath : String) : FailKind → String
  | .manifestNotFound => "Android manifest not found at " ++ manifestPath
  | .parseFailed exc => "Failed to parse Android manifest at " ++ manifestPath ++ ": " ++ exc
  | .noApplication => NO_APPLICATION_MSG
  | .readConfigError exc =>
      "Failed to read existing network security config at " ++ configPath ++ ": " ++ exc
  | .writeConfigError exc =>
      "Failed to write network security config to " ++ configPath ++ ": " ++ exc
  | .writeManifestError exc =>
      "Failed to write patched manifest to " ++ manifestPath ++ ": " ++ exc

/-- `raise SystemExit("...")` terminates the process with status 1. -/
def failExitCode (_ : FailKind) : Nat := 1

/-- Substring test used to state that a message names a path or a cause. -/
def listContainsSub (needle hay : List Char) : Bool :=
  match hay with
  | [] => needle.isEmpty
  | _ :: t => needle.isPrefixOf hay || listContainsSub needle t

def strContains (hay needle : String) : Bool := listContainsSub needle.data hay.data

/-! ### Serializer

`tree.write(path, encoding="utf-8", xml_declaration=True)`: an XML
declaration, then the root element; namespaced names are turned into
`prefix:local` qualified names via the registered prefix map (`android`
was registered at import time), with the `xmlns:` declarations emitted on
the root element sorted by prefix.  Elements with neither (non-empty) text
nor children are written in the short form `<tag ... />`. -/

def aposS : String := String.singleton (Char.ofNat 39)

def quotS : String := String.singleton (Char.ofNat 34)

def escapeCdataChar (c : Char) : String :=
  if c == '&' then "&amp;"
  else if c == '<' then "&lt;"
  else if c == '>' then "&gt;"
  else String.singleton c

def escape_cdata (s : String) : String := String.join (s.data.map escapeCdataChar)

def escapeAttribChar (c : Char) : String :=
  if c == '&' then "&amp;"
  else if c == '<' then "&lt;"
  else if c == '>' then "&gt;"
  else if c == Char.ofNat 34 then "&quot;"
  else if c == '\r' then "&#13;"
  else if c == '\n' then "&#10;"
  else if c == '\t' then "&#09;"
  else String.singleton c

def escape_attrib (s : String) : String := String.join (s.data.map escapeAttribChar)

/-- Split a `\x7buri\x7dlocal` name at its last closing brace. -/
def splitQName (s : String) : Option (String × String) :=
  match s.data with
  | [] => none
  | c :: rest =>
    if c == Char.ofNat 123 then
      match rest.reverse.findIdx? (fun d => d == Char.ofNat 125) with
      | none => none
      | some k =>
        let n := rest.length - 1 - k
        some (⟨rest.take n⟩, ⟨rest.drop (n + 1)⟩)
    else none

/-- `ET._namespace_map` after `ET.register_namespace("android", ...)`:
the well-known prefixes plus the script's registration. -/
def registeredPrefixes : List (String × String) :=
  [(ANDROID_NS, "android"),
   ("http://www.w3.org/XML/1998/namespace", "xml"),
   ("http://www.w3.org/1999/xhtml", "html"),
   ("http://www.w3.org/1999/02/22-rdf-syntax-ns#", "rdf"),
   ("http://schemas.xmlsoap.org/wsdl/", "wsdl"),
   ("http://www.w3.org/2001/XMLSchema", "xs"),
   ("http://www.w3.org/2001/XMLSchema-instance", "xsi"),
   ("http://purl.org/dc/elements/1.1/", "dc")]

def assocFind (l : List (String × String)) (k : String) : Option String :=
  (l.find? (fun p => p.1 == k)).map (fun p => p.2)

/-- One step of `_namespaces.add_qname`: record the uri of a namespaced
name in the uri-to-prefix map (the `xml` prefix is never recorded). -/
def addQName (ns : List (String × String)) (name : String) : List (String × String) :=
  match splitQName name with
  | none => ns
  | some (uri, _) =>
    if (assocFind ns uri).isSome then ns
    else
      let pfx := (assocFind registeredPrefixes uri).getD ("ns" ++ toString ns.length)
      if pfx == "xml" then ns else ns ++ [(uri, pfx)]

mutual

/-- `_namespaces`: walk the tree in document order collecting the
uri-to-prefix map, the element tag first, then the attribute keys. -/
def collectNSElem : Elem → List (String × String) → List (String × String)
  | .mk tag attrib _ children _, ns =>
    let ns1 := addQName ns tag
    let ns2 := attrib.foldl (fun acc p => addQName acc p.1) ns1
    collectNSList children ns2

def collectNSList : ElemList → List (String × String) → List (String × String)
  | .nil, ns => ns
  | .cons c rest, ns => collectNSList rest (collectNSElem c ns)

end

/-- Qualified name of a tag or attribute key under the collected map. -/
def qn (ns : List (String × String)) (name : String) : String :=
  match splitQName name with
  | none => name
  | some (uri, loc) =>
    match assocFind ns uri with
    | some pfx => pfx ++ ":" ++ loc
    | none =>
      if uri == "http://www.w3.org/XML/1998/namespace" then "xml:" ++ loc else name

/-- Code-point lexicographic `<=` on strings, Python's comparison order. -/
def strLeB : List Char → List Char → Bool
  | [], _ => true
  | _ :: _, [] => false
  | c :: cs, d :: ds =>
    if c.toNat < d.toNat then true
    else if d.toNat < c.toNat then false
    else strLeB cs ds

/-- Stable insertion sort by prefix, the order `sorted` produces on the
`(uri, prefix)` pairs (all prefixes are distinct). -/
def insertByPrefix (x : String × String) : List (String × String) → List (String × String)
  | [] => [x]
  | y :: rest =>
    if strLeB x.2.data y.2.data then x :: y :: rest else y :: insertByPrefix x rest

def sortByPrefix : List (String × String) → List (String × String)
  | [] => []
  | x :: rest => insertByPrefix x (sortByPrefix rest)

/-- The `xmlns:prefix="uri"` declarations written on the root element,
sorted by prefix. -/
def xmlnsDecls (ns : List (String × String)) : String :=
  String.join ((sortByPrefix ns).map
    (fun p =>
      (if p.2 == "" then " xmlns" else " xmlns:" ++ p.2) ++
        "=" ++ quotS ++ escape_attrib p.1 ++ quotS))

def attrsString (ns : List (String × String)) (attrib : List (String × String)) : String :=
  String.join (attrib.map
    (fun p => " " ++ qn ns p.1 ++ "=" ++ quotS ++ escape_attrib p.2 ++ quotS))

/-- Python truthiness of an optional string. -/
def truthy : Option String → Bool
  | none => false
  | some s => !s.data.isEmpty

mutual

/-- `_serialize_xml` for one element; `xmlnsPart` is non-empty only for
the root element. -/
def serializeElem (ns : List (String × String)) (xmlnsPart : String) : Elem → String
  | .mk tag attrib text children tail =>
    let stag := qn ns tag
    let head := "<" ++ stag ++ xmlnsPart ++ attrsString ns attrib
    let body :=
      if truthy text || !children.toList.isEmpty then
        head ++ ">" ++ (if truthy text then escape_cdata (text.getD "") else "") ++
          serializeList ns children ++ "</" ++ stag ++ ">"
      else head ++ " />"
    body ++ (if truthy tail then escape_cdata (tail.getD "") else "")

def serializeList (ns : List (String × String)) : ElemList → String
  | .nil => ""
  | .cons c rest => serializeElem ns "" c ++ serializeList ns rest

end

def xmlDeclaration : String :=
  "<?xml version=" ++ aposS ++ "1.0" ++ aposS ++ " encoding=" ++ aposS ++ "utf-8" ++
    aposS ++ "?>\n"

/-- The whole byte content `tree.write` produces for a tree. -/
def serializeDoc (root : Elem) : String :=
  let ns := collectNSElem root []
  xmlDeclaration ++ serializeElem ns (xmlnsDecls ns) root

/-! ### Parser

`ET.parse`: expat with namespace processing.  Prefixed names become
`\x7buri\x7dlocal`; a default namespace applies to element tags only;
`xmlns` attributes are consumed and do not appear in `attrib`; character
data immediately after a start tag becomes `text`, character data after an
end tag becomes the preceding sibling's `tail` (`None` when empty);
comments and processing instructions are dropped, with the character data
around them merged; the five predefined entities and numeric character
references are decoded; line endings are normalized to `\n` and literal
whitespace in attribute values to spaces before reference decoding;
anything malformed aborts parsing.  Recursion is bounded by a
character-count fuel, which is sufficient because every recursive call
consumes at least one input character. -/

def isXmlWS (c : Char) : Bool :=
  c == ' ' || c == '\t' || c == '\n' || c == '\r'

def skipWS : List Char → List Char
  | [] => []
  | c :: rest => if isXmlWS c then skipWS rest else c :: rest

def isNameEnd (c : Char) : Bool :=
  isXmlWS c || c == '/' || c == '>' || c == '=' || c == '<' ||
    c == Char.ofNat 34 || c == Char.ofNat 39

def readName : List Char → List Char × List Char
  | [] => ([], [])
  | c :: rest =>
    if isNameEnd c then ([], c :: rest)
    else
      let (n, r) := readName rest
      (c :: n, r)

/-- Take the input up to (excluding) the first occurrence of `stop`;
`none` when `stop` does not occur. -/
def breakAt (stop : Char) : List Char → Option (List Char × List Char)
  | [] => none
  | c :: rest =>
    if c == stop then some ([], rest)
    else (breakAt stop rest).map (fun p => (c :: p.1, p.2))

def skipToChar (stop : Char) : List Char → Option (List Char)
  | [] => none
  | c :: rest => if c == stop then some rest else skipToChar stop rest

def startsWithS (s : String) (cs : List Char) : Bool := s.data.isPrefixOf cs

def hexDigit? (c : Char) : Option Nat :=
  if '0' ≤ c && c ≤ '9' then some (c.toNat - 48)
  else if 'a' ≤ c && c ≤ 'f' then some (c.toNat - 87)
  else if 'A' ≤ c && c ≤ 'F' then some (c.toNat - 55)
  else none

def decDigit? (c : Char) : Option Nat :=
  if '0' ≤ c && c ≤ '9' then some (c.toNat - 48) else none

def readNumber (digit? : Char → Option Nat) (base : Nat) (cs : List Char) : Option Nat :=
  match cs with
  | [] => none
  | _ =>
    cs.foldl (fun acc c =>
      match acc, digit? c with
      | some n, some d => some (n * base + d)
      | _, _ => none) (some 0)

/-- Decode one entity reference (the part between `&` and `;`). -/
def decodeEntity (name : List Char) : Option (List Char) :=
  let s : String := ⟨name⟩
  if s == "amp" then some ['&']
  else if s == "lt" then some ['<']
  else if s == "gt" then some ['>']
  else if s == "quot" then some [Char.ofNat 34]
  else if s == "apos" then some [Char.ofNat 39]
  else
    match name with
    | c :: ds =>
      if c == '#' then
        match ds with
        | x :: hs =>
          if x == 'x' then (readNumber hexDigit? 16 hs).map (fun n => [Char.ofNat n])
          else (readNumber decDigit? 10 ds).map (fun n => [Char.ofNat n])
        | [] => none
      else none
    | [] => none

/-- Character data up to the next `<` (or end of input), entities decoded. -/
def readText : Nat → List Char → Option (List Char × List Char)
  | _, [] => some ([], [])
  | 0, _ => none
  | fuel + 1, c :: rest =>
    if c == '<' then some ([], c :: rest)
    else if c == '&' then
      match breakAt ';' rest with
      | none => none
      | some (ent, r) =>
        match decodeEntity ent with
        | none => none
        | some dec => (readText fuel r).map (fun p => (dec ++ p.1, p.2))
    else (readText fuel rest).map (fun p => (c :: p.1, p.2))

/-- A quoted attribute value (after the opening quote), entities decoded;
a raw `<` is malformed.  Literal whitespace characters are normalized to
spaces (attribute-value normalization); characters produced by references
are kept as they are. -/
def readAttrValue (q : Char) : Nat → List Char → Option (List Char × List Char)
  | _, [] => none
  | 0, _ => none
  | fuel + 1, c :: rest =>
    if c == q then some ([], rest)
    else if c == '<' then none
    else if c == '&' then
      match breakAt ';' rest with
      | none => none
      | some (ent, r) =>
        match decodeEntity ent with
        | none => none
        | some dec => (readAttrValue q fuel r).map (fun p => (dec ++ p.1, p.2))
    else
      let c2 := if c == '\t' || c == '\n' || c == '\r' then ' ' else c
      (readAttrValue q fuel rest).map (fun p => (c2 :: p.1, p.2))

/-- The raw attribute list of a start tag, in document order; duplicate
raw keys are malformed.  Stops in front of `/>` or `>`. -/
def readAttrs : Nat → List Char → Option (List (String × String) × List Char)
  | 0, _ => none
  | fuel + 1, cs =>
    let cs := skipWS cs
    match cs with
    | [] => none
    | c :: _ =>
      if c == '/' || c == '>' then some ([], cs)
      else
        match readName cs with
        | ([], _) => none
        | (n, r1) =>
          match skipWS r1 with
          | e :: r3 =>
            if e == '=' then
              match skipWS r3 with
              | q :: r5 =>
                if q == Char.ofNat 34 || q == Char.ofNat 39 then
                  match readAttrValue q fuel r5 with
                  | none => none
                  | some (v, r6) =>
                    match readAttrs fuel r6 with
                    | none => none
                    | some (attrs, r7) =>
                      if attrs.any (fun p => p.1 == (⟨n⟩ : String)) then none
                      else some ((⟨n⟩, ⟨v⟩) :: attrs, r7)
                else none
              | [] => none
            else none
          | [] => none

def xmlNamespaceURI : String := "http://www.w3.org/XML/1998/namespace"

/-- Look a prefix up in the in-scope bindings (`""` = default namespace;
a binding to the empty uri undeclares). -/
def nsLookup (env : List (String × String)) (pfx : String) : Option String :=
  if pfx == "xml" then some xmlNamespaceURI
  else
    match assocFind env pfx with
    | some uri => if uri == "" then none else some uri
    | none => none

/-- Separate the `xmlns`/`xmlns:p` attributes (as prefix-to-uri bindings)
from the ordinary attributes, both in document order. -/
def extractBindings :
    List (String × String) → List (String × String) × List (String × String)
  | [] => ([], [])
  | (k, v) :: rest =>
    let (bs, others) := extractBindings rest
    if k == "xmlns" then (("", v) :: bs, others)
    else if "xmlns:".data.isPrefixOf k.data then ((⟨k.data.drop 6⟩, v) :: bs, others)
    else (bs, (k, v) :: others)

def mkNamespaced (uri loc : String) : String := "\x7b" ++ uri ++ "\x7d" ++ loc

/-- Resolve a raw name against the in-scope bindings. `useDefault` is true
for element tags, false for attribute keys. -/
def resolveName (env : List (String × String)) (useDefault : Bool) (raw : String) :
    Option String :=
  if raw.data.any (fun c => c == ':') then
    match breakAt ':' raw.data with
    | none => none
    | some (p, l) =>
      if l.any (fun c => c == ':') then none
      else if p.isEmpty || l.isEmpty then none
      else (nsLookup env ⟨p⟩).map (fun uri => mkNamespaced uri ⟨l⟩)
  else if useDefault then
    match nsLookup env "" with
    | some uri => some (mkNamespaced uri raw)
    | none => some raw
  else some raw

def resolveAttrs (env : List (String × String)) :
    List (String × String) → Option (List (String × String))
  | [] => some []
  | (k, v) :: rest =>
    match resolveName env false k with
    | none => none
    | some k2 => (resolveAttrs env rest).map (fun r => (k2, v) :: r)

def optOfText (t : List Char) : Option String :=
  if t.isEmpty then none else some ⟨t⟩

/-- Skip input until just past the first occurrence of `pat`. -/
def skipPast (pat : String) : Nat → List Char → Option (List Char)
  | 0, _ => none
  | fuel + 1, cs =>
    if startsWithS pat cs then some (cs.drop pat.length)
    else
      match cs with
      | [] => none
      | _ :: rest => skipPast pat fuel rest

mutual

/-- One element, starting at its `<`. The returned element always has
`tail = none`: tails are attached by the enclosing `parseContent`. -/
def parseElem : Nat → List (String × String) → List Char → Option (Elem × List Char)
  | 0, _, _ => none
  | fuel + 1, env, cs =>
    match cs with
    | [] => none
    | c :: rest =>
      if c == '<' then
        match readName rest with
        | ([], _) => none
        | (rawName, r1) =>
          match readAttrs fuel r1 with
          | none => none
          | some (rawAttrs, r2) =>
            let (bs, plain) := extractBindings rawAttrs
            let env2 := bs ++ env
            match resolveName env2 true ⟨rawName⟩ with
            | none => none
            | some tg =>
              match resolveAttrs env2 plain with
              | none => none
              | some attrs =>
                if startsWithS "/>" r2 then
                  some (Elem.mk tg attrs none .nil none, r2.drop 2)
                else if startsWithS ">" r2 then
                  match parseContent fuel env2 (⟨rawName⟩ : String) (r2.drop 1) with
                  | none => none
                  | some (text, kids, r4) => some (Elem.mk tg attrs text kids none, r4)
                else none
      else none

/-- The content of an open element up to (and past) its end tag: the
leading character data, the children with their tails, and the rest of
the input. -/
def parseContent (fuel : Nat) (env : List (String × String)) (closing : String)
    (cs : List Char) : Option (Option String × ElemList × List Char) :=
  match fuel with
  | 0 => none
  | fuel + 1 =>
    match readText fuel cs with
    | none => none
    | some (txt, r1) =>
      match r1 with
      | [] => none
      | _ =>
        if startsWithS "</" r1 then
          match readName (r1.drop 2) with
          | ([], _) => none
          | (n, r2) =>
            if (⟨n⟩ : String) == closing then
              match skipWS r2 with
              | g :: r4 => if g == '>' then some (optOfText txt, .nil, r4) else none
              | [] => none
            else none
        else if startsWithS "<!--" r1 then
          match skipPast "-->" fuel (r1.drop 4) with
          | none => none
          | some r2 =>
            match parseContent fuel env closing r2 with
            | none => none
            | some (t2, kids, r3) =>
              some (optOfText (txt ++ (t2.getD "").data), kids, r3)
        else if startsWithS "<?" r1 then
          match skipPast "?>" fuel (r1.drop 2) with
          | none => none
          | some r2 =>
            match parseContent fuel env closing r2 with
            | none => none
            | some (t2, kids, r3) =>
              some (optOfText (txt ++ (t2.getD "").data), kids, r3)
        else
          match parseElem fuel env r1 with
          | none => none
          | some (child, r2) =>
            match parseContent fuel env closing r2 with
            | none => none
            | some (tl, kids, r3) =>
              some (optOfText txt, .cons (child.withTail tl) kids, r3)

end

/-- The prolog: whitespace, the XML declaration, comments, processing
instructions and a document type declaration, skipped. -/
def parseProlog : Nat → List Char → Option (List Char)
  | 0, _ => none
  | fuel + 1, cs =>
    let cs := skipWS cs
    if startsWithS "<!--" cs then
      match skipPast "-->" fuel (cs.drop 4) with
      | none => none
      | some r => parseProlog fuel r
    else if startsWithS "<!" cs then
      match skipDoctype (cs.drop 2) with
      | none => none
      | some r => parseProlog fuel r
    else if startsWithS "<?" cs then
      match skipPast "?>" fuel (cs.drop 2) with
      | none => none
      | some r => parseProlog fuel r
    else some cs
where
  skipDoctype : List Char → Option (List Char)
    | [] => none
    | c :: rest =>
      if c == '>' then some rest
      else if c == '[' then
        match skipToChar ']' rest with
        | none => none
        | some r => skipToChar '>' r
      else skipDoctype rest

/-- After the root element only whitespace, comments and processing
instructions may follow. -/
def parseEpilog : Nat → List Char → Option Unit
  | 0, _ => none
  | fuel + 1, cs =>
    match skipWS cs with
    | [] => some ()
    | cs2 =>
      if startsWithS "<!--" cs2 then
        match skipPast "-->" fuel (cs2.drop 4) with
        | none => none
        | some r => parseEpilog fuel r
      else if startsWithS "<?" cs2 then
        match skipPast "?>" fuel (cs2.drop 2) with
        | none => none
        | some r => parseEpilog fuel r
      else none

/-- XML end-of-line normalization, which expat applies to the raw input
before any other processing: a `\r\n` pair and a lone `\r` both become a
single `\n`.  Carriage returns produced later by decoding character
references are not affected. -/
def normalizeEOL : List Char → List Char
  | [] => []
  | '\r' :: '\n' :: rest => '\n' :: normalizeEOL rest
  | '\r' :: rest => '\n' :: normalizeEOL rest
  | c :: rest => c :: normalizeEOL rest

/-- `ET.parse` on the file content; `none` models the `ET.ParseError` path. -/
def parseXML (s : String) : Option Elem :=
  let cs := normalizeEOL s.data
  let fuel := cs.length + 1
  match parseProlog fuel cs with
  | none => none
  | some r1 =>
    match parseElem fuel [] r1 with
    | none => none
    | some (root, r2) =>
      match parseEpilog fuel r2 with
      | some _ => some root
      | none => none

/-! ### `main`

The filesystem state the tool touches: the manifest file and the
companion `res/xml/network_security_config.xml` next to it (`none` = the
file does not exist).  `main` parses the manifest, applies the four tree
mutations, writes the companion file, indents, serializes and finally
normalizes the trailing newline.  On `SystemExit` the failure kind is
reported and no file has been written (the config write and the manifest
write both happen after the last fallible tree operation). -/

structure FsState : Type where
  manifest : Option String
  netConfig : Option String
  deriving DecidableEq

def runMain (st : FsState) : Option FailKind × FsState :=
  match st.manifest with
  | none => (some .manifestNotFound, st)
  | some content =>
    match parseXML content with
    | none => (some (.parseFailed "ParseError"), st)
    | some t =>
      let t1 := ensure_permission t "android.permission.INTERNET"
      let t2 := ensure_permission t1 "android.permission.ACCESS_NETWORK_STATE"
      match remove_application_attribute t2 "usesCleartextTraffic" with
      | .error _ => (some .noApplication, st)
      | .ok t3 =>
        match ensure_application_attribute t3 "networkSecurityConfig"
            "@xml/network_security_config" with
        | .error _ => (some .noApplication, st)
        | .ok t4 =>
          let cfg := (ensure_network_security_config st.netConfig).1
          let out := ensureTrailingNewline (serializeDoc (indentTree t4))
          (none, ⟨some out, cfg⟩)

/-! ### Basic lemmas about the tree operations -/

def isAppNode (e : Elem) : Bool := e.tag == "application"

def isPermNode (perm : String) (e : Elem) : Bool :=
  e.tag == "uses-permission" && attribGet e.attrib (NS_ATTR ++ "name") == some perm

def hasPermission (cs : List Elem) (perm : String) : Bool := cs.any (isPermNode perm)

def newPermNode (perm : String) : Elem :=
  .mk "uses-permission" [(NS_ATTR ++ "name", perm)] none .nil none

def INTERNET : String := "android.permission.INTERNET"

def ACCESS_NETWORK_STATE : String := "android.permission.ACCESS_NETWORK_STATE"

/-- The net effect of the two attribute steps on the application element. -/
def patchedApp (a : Elem) : Elem :=
  ensureAttrFn "networkSecurityConfig" "@xml/network_security_config"
    (removeAttrFn "usesCleartextTraffic" a)

theorem Elem.children_withChildren (e : Elem) (c : ElemList) :
    (e.withChildren c).children = c := by cases e; rfl

theorem Elem.withChildren_withChildren (e : Elem) (c c' : ElemList) :
    (e.withChildren c).withChildren c' = e.withChildren c' := by cases e; rfl

theorem Elem.tag_withChildren (e : Elem) (c : ElemList) :
    (e.withChildren c).tag = e.tag := by cases e; rfl

theorem Elem.tag_withAttrib (e : Elem) (a : List (String × String)) :
    (e.withAttrib a).tag = e.tag := by cases e; rfl

theorem Elem.attrib_withAttrib (e : Elem) (a : List (String × String)) :
    (e.withAttrib a).attrib = a := by cases e; rfl

theorem tag_removeAttrFn (n : String) (e : Elem) : (removeAttrFn n e).tag = e.tag := by
  simp only [removeAttrFn]; split <;> simp [Elem.tag_withAttrib]

theorem tag_ensureAttrFn (n v : String) (e : Elem) : (ensureAttrFn n v e).tag = e.tag := by
  simp only [ensureAttrFn]; split <;> simp [Elem.tag_withAttrib]

theorem tag_patchedApp (e : Elem) : (patchedApp e).tag = e.tag := by
  simp [patchedApp, tag_ensureAttrFn, tag_removeAttrFn]

theorem findIdx?_decomp (p : Elem → Bool) (pre : List Elem) (a : Elem) (post : List Elem)
    (hpre : ∀ x ∈ pre, p x = false) (ha : p a = true) :
    (pre ++ a :: post).findIdx? p = some pre.length := by
  induction pre with
  | nil => simp [List.findIdx?_cons, ha]
  | cons c rest ih =>
    have hc : p c = false := hpre c (by simp)
    have ih' := ih (fun x hx => hpre x (by simp [hx]))
    simp [List.findIdx?_cons, hc, ih']

theorem findIdx?_none (p : Elem → Bool) (l : List Elem)
    (h : ∀ x ∈ l, p x = false) : l.findIdx? p = none := by
  induction l with
  | nil => simp
  | cons c rest ih =>
    have hc : p c = false := h c (by simp)
    simp [List.findIdx?_cons, hc, ih (fun x hx => h x (by simp [hx]))]

theorem find?_decomp (p : Elem → Bool) (pre : List Elem) (a : Elem) (post : List Elem)
    (hpre : ∀ x ∈ pre, p x = false) (ha : p a = true) :
    (pre ++ a :: post).find? p = some a := by
  induction pre with
  | nil => simp [List.find?_cons, ha]
  | cons c rest ih =>
    have hc : p c = false := hpre c (by simp)
    simp [List.find?_cons, hc, ih (fun x hx => hpre x (by simp [hx]))]

theorem replaceFirst_decomp (p : Elem → Bool) (f : Elem → Elem) (pre : List Elem)
    (a : Elem) (post : List Elem)
    (hpre : ∀ x ∈ pre, p x = false) (ha : p a = true) :
    replaceFirst p f (pre ++ a :: post) = pre ++ f a :: post := by
  induction pre with
  | nil => simp [replaceFirst, ha]
  | cons c rest ih =>
    have hc : p c = false := hpre c (by simp)
    simp [replaceFirst, hc, ih (fun x hx => hpre x (by simp [hx]))]

theorem first_split (p : Elem → Bool) (l : List Elem) (h : l.any p = true) :
    ∃ pre a post, l = pre ++ a :: post ∧ (∀ x ∈ pre, p x = false) ∧ p a = true := by
  induction l with
  | nil => simp at h
  | cons c rest ih =>
    by_cases hc : p c = true
    · exact ⟨[], c, rest, by simp, by simp, hc⟩
    · have hc' : p c = false := by simpa using hc
      have hrest : rest.any p = true := by
        simpa [List.any_cons, hc'] using h
      obtain ⟨pre, a, post, hsplit, hpre, ha⟩ := ih hrest
      exact ⟨c :: pre, a, post, by simp [hsplit], by
        intro x hx
        rcases List.mem_cons.mp hx with rfl | hx'
        · exact hc'
        · exact hpre x hx', ha⟩

theorem ensure_permission_eq (m : Elem) (perm : String) :
    ensure_permission m perm =
      if hasPermission m.children.toList perm then m
      else
        m.withChildren (ElemList.ofList
          (m.children.toList.take
              ((m.children.toList.findIdx? isAppNode).getD m.children.toList.length) ++
            newPermNode perm ::
              m.children.toList.drop
                ((m.children.toList.findIdx? isAppNode).getD m.children.toList.length))) :=
  rfl

theorem ensure_permission_present (m : Elem) (perm : String)
    (h : hasPermission m.children.toList perm = true) :
    ensure_permission m perm = m := by
  rw [ensure_permission_eq, if_pos h]

theorem ensure_permission_absent (m : Elem) (perm : String) (pre : List Elem) (a : Elem)
    (post : List Elem)
    (hsplit : m.children.toList = pre ++ a :: post)
    (hpre : ∀ x ∈ pre, isAppNode x = false) (ha : isAppNode a = true)
    (hno : hasPermission m.children.toList perm = false) :
    ensure_permission m perm =
      m.withChildren (ElemList.ofList (pre ++ newPermNode perm :: a :: post)) := by
  rw [ensure_permission_eq, if_neg (by simp [hno]), hsplit,
    findIdx?_decomp isAppNode pre a post hpre ha]
  simp [List.take_left, List.drop_left]

theorem ensure_permission_noapp (m : Elem) (perm : String)
    (hnoapp : ∀ x ∈ m.children.toList, isAppNode x = false)
    (hno : hasPermission m.children.toList perm = false) :
    ensure_permission m perm =
      m.withChildren (ElemList.ofList (m.children.toList ++ [newPermNode perm])) := by
  rw [ensure_permission_eq, if_neg (by simp [hno]), findIdx?_none isAppNode _ hnoapp]
  simp

theorem remove_application_attribute_decomp (m : Elem) (n : String) (pre : List Elem)
    (a : Elem) (post : List Elem)
    (hsplit : m.children.toList = pre ++ a :: post)
    (hpre : ∀ x ∈ pre, isAppNode x = false) (ha : isAppNode a = true) :
    remove_application_attribute m n =
      .ok (m.withChildren (ElemList.ofList (pre ++ removeAttrFn n a :: post))) := by
  have hf : m.children.toList.find? (fun node => node.tag == "application") = some a := by
    rw [hsplit]; exact find?_decomp _ pre a post hpre ha
  have hr : replaceFirst (fun node => node.tag == "application") (removeAttrFn n)
      m.children.toList = pre ++ removeAttrFn n a :: post := by
    rw [hsplit]; exact replaceFirst_decomp _ _ pre a post hpre ha
  simp only [remove_application_attribute, hf, hr]

theorem ensure_application_attribute_decomp (m : Elem) (n v : String) (pre : List Elem)
    (a : Elem) (post : List Elem)
    (hsplit : m.children.toList = pre ++ a :: post)
    (hpre : ∀ x ∈ pre, isAppNode x = false) (ha : isAppNode a = true) :
    ensure_application_attribute m n v =
      .ok (m.withChildren (ElemList.ofList (pre ++ ensureAttrFn n v a :: post))) := by
  have hf : m.children.toList.find? (fun node => node.tag == "application") = some a := by
    rw [hsplit]; exact find?_decomp _ pre a post hpre ha
  have hr : replaceFirst (fun node => node.tag == "application") (ensureAttrFn n v)
      m.children.toList = pre ++ ensureAttrFn n v a :: post := by
    rw [hsplit]; exact replaceFirst_decomp _ _ pre a post hpre ha
  simp only [ensure_application_attribute, hf, hr]

theorem remove_application_attribute_noapp (m : Elem) (n : String)
    (h : ∀ x ∈ m.children.toList, isAppNode x = false) :
    remove_application_attribute m n = .error NO_APPLICATION_MSG := by
  have hf : m.children.toList.find? (fun node => node.tag == "application") = none :=
    List.find?_eq_none.mpr (fun x hx => by simpa [isAppNode] using h x hx)
  simp only [remove_application_attribute, hf]

theorem isPermNode_newPermNode (p q : String) :
    isPermNode p (newPermNode q) = (q == p) := by
  simp [isPermNode, newPermNode, attribGet, Elem.tag, Elem.attrib, List.find?]

theorem isAppNode_newPermNode (q : String) : isAppNode (newPermNode q) = false := by
  simp [isAppNode, newPermNode, Elem.tag]

/-- The permission elements a successful run inserts, depending on which
of the two are already declared. -/
def permInserts (cs : List Elem) : List Elem :=
  (if hasPermission cs INTERNET then [] else [newPermNode INTERNET]) ++
    (if hasPermission cs ACCESS_NETWORK_STATE then [] else [newPermNode ACCESS_NETWORK_STATE])

theorem except_bind_ok {e a b : Type} (x : a) (f : a → Except e b) :
    (Except.ok x >>= f : Except e b) = f x := rfl

theorem except_pure_eq {e a : Type} (x : a) : (pure x : Except e a) = Except.ok x := rfl

theorem withChildren_ofList_self (t : Elem) (l : List Elem) (h : t.children.toList = l) :
    t = t.withChildren (ElemList.ofList l) := by
  rw [← h, ElemList.ofList_toList, Elem.withChildren_children]

theorem children_toList_withChildren (t : Elem) (l : List Elem) :
    (t.withChildren (ElemList.ofList l)).children.toList = l := by
  rw [Elem.children_withChildren, ElemList.toList_ofList]

theorem ensure2_decomp (t : Elem) (pre : List Elem) (a : Elem) (post : List Elem)
    (hsplit : t.children.toList = pre ++ a :: post)
    (hpre : ∀ x ∈ pre, isAppNode x = false) (ha : isAppNode a = true) :
    ensure_permission (ensure_permission t "android.permission.INTERNET")
        "android.permission.ACCESS_NETWORK_STATE" =
      t.withChildren (ElemList.ofList
        (pre ++ permInserts (pre ++ a :: post) ++ a :: post)) := by
  have hIA : isPermNode "android.permission.ACCESS_NETWORK_STATE"
      (newPermNode "android.permission.INTERNET") = false := by
    rw [isPermNode_newPermNode]; decide
  have happI : isAppNode (newPermNode "android.permission.INTERNET") = false :=
    isAppNode_newPermNode _
  by_cases hI : hasPermission (pre ++ a :: post) "android.permission.INTERNET"
  · have h1 : ensure_permission t "android.permission.INTERNET" = t :=
      ensure_permission_present _ _ (by rw [hsplit]; exact hI)
    rw [h1]
    by_cases hA : hasPermission (pre ++ a :: post) "android.permission.ACCESS_NETWORK_STATE"
    · have h2 : ensure_permission t "android.permission.ACCESS_NETWORK_STATE" = t :=
        ensure_permission_present _ _ (by rw [hsplit]; exact hA)
      rw [h2]
      simpa [permInserts, INTERNET, ACCESS_NETWORK_STATE, hI, hA] using
        withChildren_ofList_self t (pre ++ a :: post) hsplit
    · have hA' : hasPermission t.children.toList "android.permission.ACCESS_NETWORK_STATE"
          = false := by rw [hsplit]; simpa using hA
      rw [ensure_permission_absent t _ pre a post hsplit hpre ha hA']
      simp [permInserts, INTERNET, ACCESS_NETWORK_STATE, hI, hA]
  · have hI' : hasPermission t.children.toList "android.permission.INTERNET" = false := by
      rw [hsplit]; simpa using hI
    rw [ensure_permission_absent t _ pre a post hsplit hpre ha hI']
    have h1c : (t.withChildren (ElemList.ofList
        (pre ++ newPermNode "android.permission.INTERNET" :: a :: post))).children.toList =
        (pre ++ [newPermNode "android.permission.INTERNET"]) ++ a :: post := by
      rw [children_toList_withChildren]; simp
    have hpre1 : ∀ x ∈ pre ++ [newPermNode "android.permission.INTERNET"],
        isAppNode x = false := by
      intro x hx
      rcases List.mem_append.mp hx with hx' | hx'
      · exact hpre x hx'
      · rcases List.mem_singleton.mp hx' with rfl
        exact happI
    by_cases hA : hasPermission (pre ++ a :: post) "android.permission.ACCESS_NETWORK_STATE"
    · have hA1 : hasPermission (t.withChildren (ElemList.ofList
          (pre ++ newPermNode "android.permission.INTERNET" :: a :: post))).children.toList
            "android.permission.ACCESS_NETWORK_STATE" = true := by
        rw [h1c]
        simp only [hasPermission, List.any_append] at hA ⊢
        simp [hIA]
        simpa using hA
      rw [ensure_permission_present _ _ hA1]
      simp [permInserts, INTERNET, ACCESS_NETWORK_STATE, hI, hA]
    · have hA1 : hasPermission (t.withChildren (ElemList.ofList
          (pre ++ newPermNode "android.permission.INTERNET" :: a :: post))).children.toList
            "android.permission.ACCESS_NETWORK_STATE" = false := by
        rw [h1c]
        simp only [hasPermission, List.any_append] at hA ⊢
        simp [hIA]
        simpa using hA
      rw [ensure_permission_absent _ _ (pre ++ [newPermNode "android.permission.INTERNET"])
        a post h1c hpre1 ha hA1]
      rw [Elem.withChildren_withChildren]
      simp [permInserts, INTERNET, ACCESS_NETWORK_STATE, hI, hA]

theorem permInserts_tags (cs : List Elem) :
    ∀ x ∈ permInserts cs, x.tag = "uses-permission" := by
  intro x hx
  simp only [permInserts] at hx
  rcases List.mem_append.mp hx with hx' | hx' <;>
  · split at hx' <;> simp_all [newPermNode, Elem.tag]

theorem permInserts_noapp (cs : List Elem) :
    ∀ x ∈ permInserts cs, isAppNode x = false := by
  intro x hx
  have := permInserts_tags cs x hx
  simp [isAppNode, this]

/-- A successful run, decomposed: the patched tree keeps the prefix of
non-`application` children, inserts the missing permissions just before
the first `application` element, rewrites exactly that element's
attributes, and keeps everything after it unchanged. -/
theorem patch_decomp (t : Elem) (pre : List Elem) (a : Elem) (post : List Elem)
    (hsplit : t.children.toList = pre ++ a :: post)
    (hpre : ∀ x ∈ pre, isAppNode x = false) (ha : isAppNode a = true) :
    patchTree t = .ok (t.withChildren (ElemList.ofList
      (pre ++ permInserts (pre ++ a :: post) ++ patchedApp a :: post))) := by
  have h2 := ensure2_decomp t pre a post hsplit hpre ha
  have h2c : (t.withChildren (ElemList.ofList
      (pre ++ permInserts (pre ++ a :: post) ++ a :: post))).children.toList =
      (pre ++ permInserts (pre ++ a :: post)) ++ a :: post := by
    rw [children_toList_withChildren, List.append_assoc]
  have hpre2 : ∀ x ∈ pre ++ permInserts (pre ++ a :: post), isAppNode x = false := by
    intro x hx
    rcases List.mem_append.mp hx with hx' | hx'
    · exact hpre x hx'
    · exact permInserts_noapp _ x hx'
  have h3 := remove_application_attribute_decomp
    (t.withChildren (ElemList.ofList (pre ++ permInserts (pre ++ a :: post) ++ a :: post)))
    "usesCleartextTraffic" (pre ++ permInserts (pre ++ a :: post)) a post h2c hpre2 ha
  have h3c : ((t.withChildren (ElemList.ofList
      (pre ++ permInserts (pre ++ a :: post) ++ a :: post))).withChildren
        (ElemList.ofList ((pre ++ permInserts (pre ++ a :: post)) ++
          removeAttrFn "usesCleartextTraffic" a :: post))).children.toList =
      (pre ++ permInserts (pre ++ a :: post)) ++
        removeAttrFn "usesCleartextTraffic" a :: post :=
    children_toList_withChildren _ _
  have ha3 : isAppNode (removeAttrFn "usesCleartextTraffic" a) = true := by
    simpa [isAppNode, tag_removeAttrFn] using ha
  have h4 := ensure_application_attribute_decomp
    ((t.withChildren (ElemList.ofList
      (pre ++ permInserts (pre ++ a :: post) ++ a :: post))).withChildren
        (ElemList.ofList ((pre ++ permInserts (pre ++ a :: post)) ++
          removeAttrFn "usesCleartextTraffic" a :: post)))
    "networkSecurityConfig" "@xml/network_security_config"
    (pre ++ permInserts (pre ++ a :: post)) (removeAttrFn "usesCleartextTraffic" a) post
    h3c hpre2 ha3
  simp only [patchTree, h2, h3, except_bind_ok]
  simp only [h4, except_bind_ok]
  rw [except_pure_eq]
  simp [Elem.withChildren_withChildren, patchedApp]

theorem any_false_mem {p : Elem → Bool} {l : List Elem} (h : l.any p = false) :
    ∀ x ∈ l, p x = false := by
  intro x hx
  by_contra hc
  have hx' : p x = true := by simpa using hc
  have : l.any p = true := List.any_eq_true.mpr ⟨x, hx, hx'⟩
  rw [h] at this
  cases this

theorem isPermNode_app (p : String) (e : Elem) (h : isAppNode e = true) :
    isPermNode p e = false := by
  simp only [isAppNode, beq_iff_eq] at h
  simp [isPermNode, h]

theorem attribGet_nil (k : String) : attribGet [] k = none := rfl

theorem attribGet_cons (p : String × String) (rest : List (String × String)) (k : String) :
    attribGet (p :: rest) k = if p.1 == k then some p.2 else attribGet rest k := by
  simp only [attribGet, List.find?]
  rcases h : p.1 == k <;> simp [h]

theorem attribHas_nil (k : String) : attribHas [] k = false := rfl

theorem attribHas_cons (p : String × String) (rest : List (String × String)) (k : String) :
    attribHas (p :: rest) k = (p.1 == k || attribHas rest k) := by
  simp only [attribHas, List.find?]
  rcases h : p.1 == k <;> simp [h]

theorem attribGet_eq_none_of_not_has (a : List (String × String)) (k : String)
    (h : attribHas a k = false) : attribGet a k = none := by
  simp only [attribHas] at h
  cases hf : a.find? (fun p => p.1 == k) with
  | none => simp [attribGet, hf]
  | some p => rw [hf] at h; simp at h

theorem attribGet_attribDel_self (a : List (String × String)) (k : String) :
    attribGet (attribDel a k) k = none := by
  induction a with
  | nil => rfl
  | cons p rest ih =>
    rcases hp : p.1 == k with _ | _
    · simpa [attribDel, List.filter_cons, hp, attribGet_cons] using ih
    · simpa [attribDel, List.filter_cons, hp] using ih

theorem attribGet_map_update (a : List (String × String)) (k v : String) :
    attribGet (a.map (fun p => if p.1 = k then (k, v) else p)) k =
      if attribHas a k then some v else none := by
  induction a with
  | nil => simp [attribGet_nil, attribHas_nil]
  | cons p rest ih =>
    by_cases hp : p.1 = k
    · simp only [List.map_cons, if_pos hp]
      simp [attribGet_cons, hp, attribHas_cons]
    · simp only [List.map_cons, if_neg hp]
      simp [attribGet_cons, hp, attribHas_cons, ih]

theorem attribGet_map_update_other (a : List (String × String)) (k v k' : String)
    (hne : ¬k' = k) :
    attribGet (a.map (fun p => if p.1 = k then (k, v) else p)) k' = attribGet a k' := by
  induction a with
  | nil => simp
  | cons p rest ih =>
    by_cases hp : p.1 = k
    · have h1 : ¬k = k' := fun h => hne h.symm
      have h2 : ¬p.1 = k' := by rw [hp]; exact h1
      simp only [List.map_cons, if_pos hp]
      simp [attribGet_cons, h1, h2, ih]
    · simp only [List.map_cons, if_neg hp]
      simp [attribGet_cons, hp, ih]

theorem attribGet_append_single (a : List (String × String)) (k v k' : String) :
    attribGet (a ++ [(k, v)]) k' =
      match attribGet a k' with
      | some w => some w
      | none => if k == k' then some v else none := by
  induction a with
  | nil => simp [attribGet_cons, attribGet_nil]
  | cons p rest ih =>
    by_cases hp : p.1 = k' <;>
      simp [List.cons_append, attribGet_cons, hp, ih]

theorem attribGet_attribSet_self (a : List (String × String)) (k v : String) :
    attribGet (attribSet a k v) k = some v := by
  simp only [attribSet]
  split
  case isTrue h => simp [attribGet_map_update, h]
  case isFalse h =>
    have hn : attribGet a k = none :=
      attribGet_eq_none_of_not_has a k (by simpa using h)
    simp [attribGet_append_single, hn]

theorem attribGet_attribSet_other (a : List (String × String)) (k v k' : String)
    (hne : ¬k' = k) : attribGet (attribSet a k v) k' = attribGet a k' := by
  simp only [attribSet]
  split
  · simpa using attribGet_map_update_other a k v k' hne
  · have h1 : (k == k') = false := by simpa using fun h => hne h.symm
    cases hg : attribGet a k' <;> simp [attribGet_append_single, hg, h1]

theorem attribGet_removeAttrFn_self (n : String) (e : Elem) :
    attribGet (removeAttrFn n e).attrib (NS_ATTR ++ n) = none := by
  simp only [removeAttrFn]
  split
  case isTrue h => simp [Elem.attrib_withAttrib, attribGet_attribDel_self]
  case isFalse h => exact attribGet_eq_none_of_not_has _ _ (by simpa using h)

theorem attribGet_ensureAttrFn_self (n v : String) (e : Elem) :
    attribGet (ensureAttrFn n v e).attrib (NS_ATTR ++ n) = some v := by
  simp only [ensureAttrFn]
  split
  case isTrue h => simp [Elem.attrib_withAttrib, attribGet_attribSet_self]
  case isFalse h => simpa using h

theorem attribGet_ensureAttrFn_other (n v k : String) (e : Elem) (hne : ¬k = NS_ATTR ++ n) :
    attribGet (ensureAttrFn n v e).attrib k = attribGet e.attrib k := by
  simp only [ensureAttrFn]
  split
  · simp [Elem.attrib_withAttrib, attribGet_attribSet_other _ _ _ _ hne]
  · rfl

theorem patchedApp_nsc (a : Elem) :
    attribGet (patchedApp a).attrib (NS_ATTR ++ "networkSecurityConfig") =
      some "@xml/network_security_config" :=
  attribGet_ensureAttrFn_self _ _ _

theorem uct_ne_nsc :
    ¬(NS_ATTR ++ "usesCleartextTraffic" = NS_ATTR ++ "networkSecurityConfig") := by
  decide

theorem patchedApp_uct (a : Elem) :
    attribGet (patchedApp a).attrib (NS_ATTR ++ "usesCleartextTraffic") = none := by
  unfold patchedApp
  rw [attribGet_ensureAttrFn_other _ _ _ _ uct_ne_nsc]
  exact attribGet_removeAttrFn_self _ _

theorem isAppNode_patchedApp (a : Elem) (h : isAppNode a = true) :
    isAppNode (patchedApp a) = true := by
  simpa [isAppNode, tag_patchedApp] using h

/-- C9: on a manifest whose root has several `application` children, all
operations target only the first one: the attribute steps rewrite exactly
the first `application` element (without failing), the new permission
elements are inserted before it, and every later child — including later
`application` elements — is kept unchanged. -/
theorem patch_targets_first_application (t : Elem) (pre : List Elem) (a : Elem)
    (post : List Elem)
    (hsplit : t.children.toList = pre ++ a :: post)
    (hpre : ∀ x ∈ pre, isAppNode x = false) (ha : isAppNode a = true) :
    ∃ t' ins, patchTree t = .ok t' ∧
      t'.children.toList = pre ++ ins ++ patchedApp a :: post ∧
      ∀ x ∈ ins, x.tag = "uses-permission" := by
  refine ⟨_, permInserts (pre ++ a :: post),
    patch_decomp t pre a post hsplit hpre ha, ?_, permInserts_tags _⟩
  rw [children_toList_withChildren]

/-- C9 witness: a manifest with two `application` children; the run
succeeds, rewrites only the first and keeps the second untouched. -/
theorem patch_targets_first_application_witness :
    ∃ t' ins,
      patchTree (Elem.mk "manifest" [] none
        (.cons (Elem.mk "application" [(NS_ATTR ++ "usesCleartextTraffic", "true")]
            none .nil none)
          (.cons (Elem.mk "application" [] none .nil none) .nil)) none) = .ok t' ∧
      t'.children.toList =
        [] ++ ins ++ patchedApp (Elem.mk "application"
          [(NS_ATTR ++ "usesCleartextTraffic", "true")] none .nil none) ::
            [Elem.mk "application" [] none .nil none] ∧
      ∀ x ∈ ins, x.tag = "uses-permission" :=
  patch_targets_first_application _ []
    (Elem.mk "application" [(NS_ATTR ++ "usesCleartextTraffic", "true")] none .nil none)
    [Elem.mk "application" [] none .nil none] (by rfl)
    (by intro x hx; simp at hx) (by decide)

/-- C2: a well-formed manifest with an `application` child and neither of
the two required permissions: after patching both permission elements
exist exactly once (detected through the android-namespaced `name`
attribute), and both sit strictly before the first `application` child. -/
theorem missing_permissions_inserted (t : Elem)
    (hApp : t.children.toList.any isAppNode = true)
    (hNoI : hasPermission t.children.toList "android.permission.INTERNET" = false)
    (hNoA : hasPermission t.children.toList "android.permission.ACCESS_NETWORK_STATE" = false) :
    ∃ t' i j k, patchTree t = .ok t' ∧
      (t'.children.toList.filter (isPermNode "android.permission.INTERNET")).length = 1 ∧
      (t'.children.toList.filter
        (isPermNode "android.permission.ACCESS_NETWORK_STATE")).length = 1 ∧
      t'.children.toList.findIdx? (isPermNode "android.permission.INTERNET") = some i ∧
      t'.children.toList.findIdx?
        (isPermNode "android.permission.ACCESS_NETWORK_STATE") = some j ∧
      t'.children.toList.findIdx? isAppNode = some k ∧ i < k ∧ j < k := by
  obtain ⟨pre, a, post, hsplit, hpre, ha⟩ := first_split isAppNode _ hApp
  rw [hsplit] at hNoI hNoA
  have hperm : permInserts (pre ++ a :: post) =
      [newPermNode "android.permission.INTERNET",
        newPermNode "android.permission.ACCESS_NETWORK_STATE"] := by
    simp [permInserts, INTERNET, ACCESS_NETWORK_STATE, hNoI, hNoA]
  have hres := patch_decomp t pre a post hsplit hpre ha
  rw [hperm] at hres
  have hmemI := any_false_mem hNoI
  have hmemA := any_false_mem hNoA
  have hpa : isAppNode (patchedApp a) = true := isAppNode_patchedApp a ha
  have hpaI : isPermNode "android.permission.INTERNET" (patchedApp a) = false :=
    isPermNode_app _ _ hpa
  have hpaA : isPermNode "android.permission.ACCESS_NETWORK_STATE" (patchedApp a) = false :=
    isPermNode_app _ _ hpa
  have hII : isPermNode "android.permission.INTERNET"
      (newPermNode "android.permission.INTERNET") = true := by
    rw [isPermNode_newPermNode]; decide
  have hIA : isPermNode "android.permission.ACCESS_NETWORK_STATE"
      (newPermNode "android.permission.INTERNET") = false := by
    rw [isPermNode_newPermNode]; decide
  have hAI : isPermNode "android.permission.INTERNET"
      (newPermNode "android.permission.ACCESS_NETWORK_STATE") = false := by
    rw [isPermNode_newPermNode]; decide
  have hAA : isPermNode "android.permission.ACCESS_NETWORK_STATE"
      (newPermNode "android.permission.ACCESS_NETWORK_STATE") = true := by
    rw [isPermNode_newPermNode]; decide
  have happI : isAppNode (newPermNode "android.permission.INTERNET") = false :=
    isAppNode_newPermNode _
  have happA : isAppNode (newPermNode "android.permission.ACCESS_NETWORK_STATE") = false :=
    isAppNode_newPermNode _
  have hpreI : ∀ x ∈ pre, isPermNode "android.permission.INTERNET" x = false :=
    fun x hx => hmemI x (List.mem_append_left _ hx)
  have hpreA : ∀ x ∈ pre, isPermNode "android.permission.ACCESS_NETWORK_STATE" x = false :=
    fun x hx => hmemA x (List.mem_append_left _ hx)
  have hpostI : ∀ x ∈ post, isPermNode "android.permission.INTERNET" x = false :=
    fun x hx => hmemI x (List.mem_append_right _ (List.mem_cons_of_mem a hx))
  have hpostA : ∀ x ∈ post, isPermNode "android.permission.ACCESS_NETWORK_STATE" x = false :=
    fun x hx => hmemA x (List.mem_append_right _ (List.mem_cons_of_mem a hx))
  have hfpreI : pre.filter (isPermNode "android.permission.INTERNET") = [] :=
    List.filter_eq_nil_iff.mpr (fun x hx => by simp [hpreI x hx])
  have hfpreA : pre.filter (isPermNode "android.permission.ACCESS_NETWORK_STATE") = [] :=
    List.filter_eq_nil_iff.mpr (fun x hx => by simp [hpreA x hx])
  have hfpostI : post.filter (isPermNode "android.permission.INTERNET") = [] :=
    List.filter_eq_nil_iff.mpr (fun x hx => by simp [hpostI x hx])
  have hfpostA : post.filter (isPermNode "android.permission.ACCESS_NETWORK_STATE") = [] :=
    List.filter_eq_nil_iff.mpr (fun x hx => by simp [hpostA x hx])
  refine ⟨_, pre.length, pre.length + 1, pre.length + 2, hres, ?_, ?_, ?_, ?_, ?_, ?_, ?_⟩
  · rw [children_toList_withChildren]
    simp [List.filter_append, hfpreI, hfpostI, hII, hAI, hpaI]
  · rw [children_toList_withChildren]
    simp [List.filter_append, hfpreA, hfpostA, hIA, hAA, hpaA]
  · rw [children_toList_withChildren]
    have hsh : (pre ++ [newPermNode "android.permission.INTERNET",
        newPermNode "android.permission.ACCESS_NETWORK_STATE"]) ++ patchedApp a :: post =
        pre ++ newPermNode "android.permission.INTERNET" ::
          (newPermNode "android.permission.ACCESS_NETWORK_STATE" :: patchedApp a :: post) := by
      simp
    rw [hsh]
    exact findIdx?_decomp _ pre _ _ hpreI hII
  · rw [children_toList_withChildren]
    have hsh : (pre ++ [newPermNode "android.permission.INTERNET",
        newPermNode "android.permission.ACCESS_NETWORK_STATE"]) ++ patchedApp a :: post =
        (pre ++ [newPermNode "android.permission.INTERNET"]) ++
          newPermNode "android.permission.ACCESS_NETWORK_STATE" ::
            (patchedApp a :: post) := by
      simp
    rw [hsh]
    have := findIdx?_decomp (isPermNode "android.permission.ACCESS_NETWORK_STATE")
      (pre ++ [newPermNode "android.permission.INTERNET"]) _ (patchedApp a :: post)
      (fun x hx => by
        rcases List.mem_append.mp hx with hx' | hx'
        · exact hpreA x hx'
        · rcases List.mem_singleton.mp hx' with rfl
          exact hIA) hAA
    simpa using this
  · rw [children_toList_withChildren]
    have := findIdx?_decomp isAppNode
      (pre ++ [newPermNode "android.permission.INTERNET",
        newPermNode "android.permission.ACCESS_NETWORK_STATE"]) _ post
      (fun x hx => by
        rcases List.mem_append.mp hx with hx' | hx'
        · exact hpre x hx'
        · rcases List.mem_cons.mp hx' with rfl | hx''
          · exact happI
          · rcases List.mem_singleton.mp hx'' with rfl
            exact happA) hpa
    simpa using this
  · omega
  · omega

/-- C2 witness: the minimal generated manifest, one `application` child and
no permissions at all. -/
theorem missing_permissions_inserted_witness :
    ∃ t' i j k,
      patchTree (Elem.mk "manifest" [] none
        (.cons (Elem.mk "application" [] none .nil none) .nil) none) = .ok t' ∧
      (t'.children.toList.filter (isPermNode "android.permission.INTERNET")).length = 1 ∧
      (t'.children.toList.filter
        (isPermNode "android.permission.ACCESS_NETWORK_STATE")).length = 1 ∧
      t'.children.toList.findIdx? (isPermNode "android.permission.INTERNET") = some i ∧
      t'.children.toList.findIdx?
        (isPermNode "android.permission.ACCESS_NETWORK_STATE") = some j ∧
      t'.children.toList.findIdx? isAppNode = some k ∧ i < k ∧ j < k :=
  missing_permissions_inserted _ (by decide) (by decide) (by decide)

theorem find?_split (p : Elem → Bool) (l : List Elem) (a : Elem) (h : l.find? p = some a) :
    ∃ pre post, l = pre ++ a :: post ∧ ∀ x ∈ pre, p x = false := by
  induction l with
  | nil => simp at h
  | cons c rest ih =>
    by_cases hc : p c = true
    · rw [List.find?_cons_of_pos _ hc] at h
      exact ⟨[], rest, by simp [Option.some_inj.mp h], by simp⟩
    · have hc' : p c = false := by simpa using hc
      rw [List.find?_cons_of_neg _ (by simp [hc'])] at h
      obtain ⟨pre, post, h1, h2⟩ := ih h
      exact ⟨c :: pre, post, by simp [h1], by
        intro x hx
        rcases List.mem_cons.mp hx with rfl | hx'
        · exact hc'
        · exact h2 x hx'⟩

/-- C3: when the first `application` element lacks the android-namespaced
`networkSecurityConfig` attribute, after patching it carries exactly the
value `@xml/network_security_config` and the android-namespaced
`usesCleartextTraffic` attribute is absent, whatever its prior value. -/
theorem network_security_attribute_set (t : Elem) (a : Elem)
    (hfind : t.children.toList.find? isAppNode = some a)
    (_hlacks : attribGet a.attrib (NS_ATTR ++ "networkSecurityConfig") = none) :
    ∃ t' a', patchTree t = .ok t' ∧
      t'.children.toList.find? isAppNode = some a' ∧
      attribGet a'.attrib (NS_ATTR ++ "networkSecurityConfig") =
        some "@xml/network_security_config" ∧
      attribGet a'.attrib (NS_ATTR ++ "usesCleartextTraffic") = none := by
  obtain ⟨pre, post, hsplit, hpre⟩ := find?_split isAppNode _ a hfind
  have ha : isAppNode a = true := List.find?_some hfind
  have hres := patch_decomp t pre a post hsplit hpre ha
  refine ⟨_, patchedApp a, hres, ?_, patchedApp_nsc a, patchedApp_uct a⟩
  rw [children_toList_withChildren]
  exact find?_decomp isAppNode (pre ++ permInserts (pre ++ a :: post)) _ post
    (fun x hx => by
      rcases List.mem_append.mp hx with hx' | hx'
      · exact hpre x hx'
      · exact permInserts_noapp _ x hx')
    (isAppNode_patchedApp a ha)

/-- C3 witness: an application element with a prior `usesCleartextTraffic`
value and no `networkSecurityConfig`. -/
theorem network_security_attribute_set_witness :
    ∃ t' a',
      patchTree (Elem.mk "manifest" [] none
        (.cons (Elem.mk "application" [(NS_ATTR ++ "usesCleartextTraffic", "true")]
          none .nil none) .nil) none) = .ok t' ∧
      t'.children.toList.find? isAppNode = some a' ∧
      attribGet a'.attrib (NS_ATTR ++ "networkSecurityConfig") =
        some "@xml/network_security_config" ∧
      attribGet a'.attrib (NS_ATTR ++ "usesCleartextTraffic") = none :=
  network_security_attribute_set _
    (Elem.mk "application" [(NS_ATTR ++ "usesCleartextTraffic", "true")] none .nil none)
    (by decide) (by decide)

theorem ensure_permission_preserves_noapp (m : Elem) (perm : String)
    (h : ∀ x ∈ m.children.toList, isAppNode x = false) :
    ∀ x ∈ (ensure_permission m perm).children.toList, isAppNode x = false := by
  rw [ensure_permission_eq]
  split
  · exact h
  · intro x hx
    rw [children_toList_withChildren] at hx
    rcases List.mem_append.mp hx with hx' | hx'
    · exact h x (List.mem_of_mem_take hx')
    · rcases List.mem_cons.mp hx' with rfl | hx''
      · exact isAppNode_newPermNode _
      · exact h x (List.mem_of_mem_drop hx'')

/-- C4: a well-formed manifest whose root has no `application` child makes
the run fail with a non-zero exit status before anything is written: both
files are exactly as they were. -/
theorem no_application_aborts (st : FsState) (s : String) (t : Elem)
    (hm : st.manifest = some s) (hp : parseXML s = some t)
    (hnoapp : ∀ x ∈ t.children.toList, isAppNode x = false) :
    (runMain st).1 = some FailKind.noApplication ∧ (runMain st).2 = st ∧
      failExitCode FailKind.noApplication ≠ 0 := by
  have h1 := ensure_permission_preserves_noapp t "android.permission.INTERNET" hnoapp
  have h2 := ensure_permission_preserves_noapp
    (ensure_permission t "android.permission.INTERNET")
    "android.permission.ACCESS_NETWORK_STATE" h1
  have hrem := remove_application_attribute_noapp
    (ensure_permission (ensure_permission t "android.permission.INTERNET")
      "android.permission.ACCESS_NETWORK_STATE") "usesCleartextTraffic" h2
  simp only [runMain, hm, hp, hrem]
  exact ⟨trivial, trivial, by decide⟩

/-- C4 witness: an empty manifest element. -/
theorem no_application_aborts_witness :
    (runMain ⟨some "<manifest />", none⟩).1 = some FailKind.noApplication ∧
    (runMain ⟨some "<manifest />", none⟩).2 = ⟨some "<manifest />", none⟩ ∧
    failExitCode FailKind.noApplication ≠ 0 :=
  no_application_aborts ⟨some "<manifest />", none⟩ "<manifest />"
    (Elem.mk "manifest" [] none .nil none) rfl (by decide)
    (by intro x hx; simp [ElemList.toList, Elem.children] at hx)

/-! ### Duplicate permissions (C5) -/

/-- The android-namespaced `name` values of the direct `uses-permission`
children, in document order. -/
def permNames (cs : List Elem) : List String :=
  cs.filterMap (fun c =>
    if c.tag == "uses-permission" then attribGet c.attrib (NS_ATTR ++ "name") else none)

theorem permNames_append (l1 l2 : List Elem) :
    permNames (l1 ++ l2) = permNames l1 ++ permNames l2 :=
  List.filterMap_append l1 l2 _

theorem permNames_cons_app (a : Elem) (cs : List Elem) (h : isAppNode a = true) :
    permNames (a :: cs) = permNames cs := by
  have htag : a.tag = "application" := by simpa [isAppNode] using h
  simp [permNames, List.filterMap_cons, htag]

theorem permNames_newPermNode (p : String) : permNames [newPermNode p] = [p] := by
  simp [permNames, List.filterMap_cons, newPermNode, Elem.tag, Elem.attrib, attribGet_cons]

theorem permNames_cons (c : Elem) (rest : List Elem) :
    permNames (c :: rest) =
      (match (if c.tag = "uses-permission"
          then attribGet c.attrib (NS_ATTR ++ "name") else none) with
        | some q => q :: permNames rest
        | none => permNames rest) := by
  simp only [permNames, List.filterMap_cons]
  split <;> simp_all

theorem mem_permNames (cs : List Elem) (p : String) :
    p ∈ permNames cs ↔ hasPermission cs p = true := by
  induction cs with
  | nil => simp [permNames, hasPermission]
  | cons c rest ih =>
    rw [permNames_cons]
    by_cases htag : c.tag = "uses-permission"
    · cases hg : attribGet c.attrib (NS_ATTR ++ "name") with
      | none => simp [htag, hg, hasPermission, isPermNode, ih]
      | some q =>
        simp only [if_pos htag, hg]
        simp only [hasPermission, List.any_cons, List.mem_cons, Bool.or_eq_true]
        constructor
        · intro hmem
          rcases hmem with rfl | hmem'
          · left
            simp [isPermNode, htag, hg]
          · right
            have hrest := ih.mp hmem'
            simpa [hasPermission] using hrest
        · intro hp
          rcases hp with hp | hp
          · left
            have hqp : q = p := by simpa [isPermNode, htag, hg] using hp
            exact hqp.symm
          · right
            exact ih.mpr (by simpa [hasPermission] using hp)
    · simp [htag, hasPermission, isPermNode, ih]

theorem patchTree_noapp (t : Elem)
    (hnoapp : ∀ x ∈ t.children.toList, isAppNode x = false) :
    patchTree t = .error NO_APPLICATION_MSG := by
  have h1 := ensure_permission_preserves_noapp t "android.permission.INTERNET" hnoapp
  have h2 := ensure_permission_preserves_noapp _ "android.permission.ACCESS_NETWORK_STATE" h1
  have hrem := remove_application_attribute_noapp _ "usesCleartextTraffic" h2
  simp only [patchTree, hrem]
  rfl

/-- The duplicate-permission input: two identical CAMERA declarations
before the `application` element. -/
def dupManifest : Elem :=
  .mk "manifest" [] none
    (.cons (Elem.mk "uses-permission"
        [(NS_ATTR ++ "name", "android.permission.CAMERA")] none .nil none)
      (.cons (Elem.mk "uses-permission"
          [(NS_ATTR ++ "name", "android.permission.CAMERA")] none .nil none)
        (.cons (Elem.mk "application" [] none .nil none) .nil))) none

def dupManifestPatched : Elem :=
  match patchTree dupManifest with
  | .ok t => t
  | .error _ => dupManifest

/-- C5 counterexample: the patcher succeeds on a manifest that already
declares the same permission twice, and the result still contains two
direct `uses-permission` children with equal android-namespaced `name`
attributes - the uniqueness claim fails on this input. -/
theorem duplicate_permissions_survive :
    patchTree dupManifest = .ok dupManifestPatched ∧
      ¬(permNames dupManifestPatched.children.toList).Nodup :=
  ⟨rfl, by decide⟩

/-- C5 amended: the patcher never introduces a duplicate: whenever the
input manifest has no two direct `uses-permission` children with equal
android-namespaced names, neither has the output. -/
theorem no_duplicate_permissions_introduced (t t' : Elem)
    (h : patchTree t = .ok t')
    (hnodup : (permNames t.children.toList).Nodup) :
    (permNames t'.children.toList).Nodup := by
  by_cases hApp : t.children.toList.any isAppNode = true
  · obtain ⟨pre, a, post, hsplit, hpre, ha⟩ := first_split isAppNode _ hApp
    have hres := patch_decomp t pre a post hsplit hpre ha
    rw [hres] at h
    obtain rfl := (Except.ok.inj h)
    rw [children_toList_withChildren]
    rw [hsplit] at hnodup
    rw [permNames_append, permNames_cons_app a post ha] at hnodup
    have hcsnames : permNames (pre ++ a :: post) = permNames pre ++ permNames post := by
      rw [permNames_append, permNames_cons_app a post ha]
    have hIA : ¬("android.permission.INTERNET" = "android.permission.ACCESS_NETWORK_STATE") := by
      decide
    have hnames : permNames ((pre ++ permInserts (pre ++ a :: post)) ++ patchedApp a :: post) =
        (permNames pre ++ permNames (permInserts (pre ++ a :: post))) ++ permNames post := by
      rw [permNames_append, permNames_append,
        permNames_cons_app _ post (isAppNode_patchedApp a ha)]
    rw [hnames]
    by_cases hI : hasPermission (pre ++ a :: post) "android.permission.INTERNET" = true
    · by_cases hA : hasPermission (pre ++ a :: post)
          "android.permission.ACCESS_NETWORK_STATE" = true
      · have hins : permInserts (pre ++ a :: post) = [] := by
          simp [permInserts, INTERNET, ACCESS_NETWORK_STATE, hI, hA]
        rw [hins]
        simpa [permNames] using hnodup
      · have hAnot : "android.permission.ACCESS_NETWORK_STATE" ∉
            permNames pre ++ permNames post := by
          rw [← hcsnames, mem_permNames]
          simpa using hA
        have hins : permInserts (pre ++ a :: post) =
            [newPermNode "android.permission.ACCESS_NETWORK_STATE"] := by
          simp [permInserts, INTERNET, ACCESS_NETWORK_STATE, hI, hA]
        rw [hins, permNames_newPermNode]
        have hshape : (permNames pre ++ ["android.permission.ACCESS_NETWORK_STATE"]) ++
            permNames post = permNames pre ++
              "android.permission.ACCESS_NETWORK_STATE" :: permNames post := by
          simp
        rw [hshape, List.nodup_middle, List.nodup_cons]
        exact ⟨hAnot, hnodup⟩
    · have hInot : "android.permission.INTERNET" ∉ permNames pre ++ permNames post := by
        rw [← hcsnames, mem_permNames]
        simpa using hI
      by_cases hA : hasPermission (pre ++ a :: post)
          "android.permission.ACCESS_NETWORK_STATE" = true
      · have hins : permInserts (pre ++ a :: post) =
            [newPermNode "android.permission.INTERNET"] := by
          simp [permInserts, INTERNET, ACCESS_NETWORK_STATE, hI, hA]
        rw [hins, permNames_newPermNode]
        have hshape : (permNames pre ++ ["android.permission.INTERNET"]) ++ permNames post =
            permNames pre ++ "android.permission.INTERNET" :: permNames post := by
          simp
        rw [hshape, List.nodup_middle, List.nodup_cons]
        exact ⟨hInot, hnodup⟩
      · have hAnot : "android.permission.ACCESS_NETWORK_STATE" ∉
            permNames pre ++ permNames post := by
          rw [← hcsnames, mem_permNames]
          simpa using hA
        have hins : permInserts (pre ++ a :: post) =
            [newPermNode "android.permission.INTERNET",
              newPermNode "android.permission.ACCESS_NETWORK_STATE"] := by
          simp [permInserts, INTERNET, ACCESS_NETWORK_STATE, hI, hA]
        have hnn : permNames [newPermNode "android.permission.INTERNET",
            newPermNode "android.permission.ACCESS_NETWORK_STATE"] =
            ["android.permission.INTERNET", "android.permission.ACCESS_NETWORK_STATE"] := by
          have hsp : ([newPermNode "android.permission.INTERNET",
              newPermNode "android.permission.ACCESS_NETWORK_STATE"] : List Elem) =
              [newPermNode "android.permission.INTERNET"] ++
                [newPermNode "android.permission.ACCESS_NETWORK_STATE"] := rfl
          rw [hsp, permNames_append, permNames_newPermNode, permNames_newPermNode]
          rfl
        rw [hins, hnn]
        have hshape : (permNames pre ++ ["android.permission.INTERNET",
            "android.permission.ACCESS_NETWORK_STATE"]) ++ permNames post =
            permNames pre ++ "android.permission.INTERNET" ::
              ("android.permission.ACCESS_NETWORK_STATE" :: permNames post) := by
          simp
        rw [hshape, List.nodup_middle, List.nodup_cons]
        constructor
        · intro hmem
          rw [List.mem_append] at hmem
          rcases hmem with hmem | hmem
          · exact hInot (List.mem_append_left _ hmem)
          · rcases List.mem_cons.mp hmem with heq | hmem'
            · exact hIA heq
            · exact hInot (List.mem_append_right _ hmem')
        · rw [List.nodup_middle, List.nodup_cons]
          exact ⟨hAnot, hnodup⟩
  · have hnoapp : ∀ x ∈ t.children.toList, isAppNode x = false :=
      any_false_mem (by simpa using hApp)
    rw [patchTree_noapp t hnoapp] at h
    cases h

/-- C10: permission detection keys only on the android-namespaced `name`
attribute of direct children tagged exactly `uses-permission`.  A manifest
that declares the permission through an un-namespaced `name` attribute, or
under a namespaced tag, is not recognized: `ensure_permission` inserts an
additional android-namespaced element and keeps the original child. -/
theorem unnamespaced_declaration_not_recognized (t : Elem) (perm : String) (c : Elem)
    (hc : c ∈ t.children.toList)
    (_hdecl : (c.tag = "uses-permission" ∧ attribGet c.attrib "name" = some perm) ∨
      (c.tag = NS_ATTR ++ "uses-permission" ∧
        attribGet c.attrib (NS_ATTR ++ "name") = some perm))
    (hno : hasPermission t.children.toList perm = false) :
    (ensure_permission t perm).children.toList.length = t.children.toList.length + 1 ∧
    c ∈ (ensure_permission t perm).children.toList ∧
    newPermNode perm ∈ (ensure_permission t perm).children.toList := by
  rw [ensure_permission_eq, if_neg (by simp [hno]), children_toList_withChildren]
  refine ⟨?_, ?_, by simp⟩
  · have h1 := congrArg List.length
      (List.take_append_drop
        ((t.children.toList.findIdx? isAppNode).getD t.children.toList.length)
        t.children.toList)
    simp only [List.length_append] at h1
    simp only [List.length_append, List.length_cons]
    omega
  · rw [← List.take_append_drop
      ((t.children.toList.findIdx? isAppNode).getD t.children.toList.length)
      t.children.toList] at hc
    rcases List.mem_append.mp hc with hx' | hx'
    · exact List.mem_append_left _ hx'
    · exact List.mem_append_right _ (List.mem_cons_of_mem _ hx')

/-- C10 witness: a `uses-permission` child whose `name` attribute is not
namespaced is not recognized as declaring INTERNET. -/
theorem unnamespaced_declaration_not_recognized_witness :
    (ensure_permission (Elem.mk "manifest" [] none
        (.cons (Elem.mk "uses-permission" [("name", "android.permission.INTERNET")]
          none .nil none) .nil) none)
      "android.permission.INTERNET").children.toList.length =
      (Elem.mk "manifest" [] none
        (.cons (Elem.mk "uses-permission" [("name", "android.permission.INTERNET")]
          none .nil none) .nil) none).children.toList.length + 1 ∧
    (Elem.mk "uses-permission" [("name", "android.permission.INTERNET")] none .nil none) ∈
      (ensure_permission (Elem.mk "manifest" [] none
        (.cons (Elem.mk "uses-permission" [("name", "android.permission.INTERNET")]
          none .nil none) .nil) none)
        "android.permission.INTERNET").children.toList ∧
    newPermNode "android.permission.INTERNET" ∈
      (ensure_permission (Elem.mk "manifest" [] none
        (.cons (Elem.mk "uses-permission" [("name", "android.permission.INTERNET")]
          none .nil none) .nil) none)
        "android.permission.INTERNET").children.toList :=
  unnamespaced_declaration_not_recognized _ "android.permission.INTERNET" _
    (by decide) (Or.inl ⟨by decide, by decide⟩) (by decide)

/-- C8: the companion-file writer leaves the file untouched exactly when
its current content equals the fixed literal, otherwise it writes exactly
that literal; in particular a second call never writes again. -/
theorem config_write_policy (current : Option String) :
    ((ensure_network_security_config current).2 = false ↔
      current = some NETWORK_SECURITY_CONFIG) ∧
    (ensure_network_security_config current).1 = some NETWORK_SECURITY_CONFIG ∧
    (ensure_network_security_config
      ((ensure_network_security_config current).1)).2 = false := by
  simp only [ensure_network_security_config]
  by_cases h : current = some NETWORK_SECURITY_CONFIG <;> simp [h]

/-! ### Failure messages (C6) -/

theorem isPrefixOf_append_self (l r : List Char) : l.isPrefixOf (l ++ r) = true := by
  induction l with
  | nil => simp [List.isPrefixOf]
  | cons c rest ih => simp [List.isPrefixOf, ih]

theorem listContainsSub_nilNeedle (hay : List Char) : listContainsSub [] hay = true := by
  cases hay with
  | nil => rfl
  | cons c t => simp [listContainsSub, List.isPrefixOf]

theorem listContainsSub_spec (needle pre post : List Char) :
    listContainsSub needle (pre ++ needle ++ post) = true := by
  induction pre with
  | nil =>
    cases needle with
    | nil => simpa using listContainsSub_nilNeedle post
    | cons c rest =>
      have h1 := isPrefixOf_append_self (c :: rest) post
      simp only [List.nil_append, List.cons_append] at h1 ⊢
      simp [listContainsSub, h1]
  | cons p pre' ih =>
    simp only [List.cons_append, List.append_assoc] at ih ⊢
    simp [listContainsSub, ih]

theorem strContains_middle (a b c : String) : strContains (a ++ b ++ c) b = true := by
  simp only [strContains, String.data_append]
  exact listContainsSub_spec b.data a.data c.data

theorem strContains_left (b c : String) : strContains (b ++ c) b = true := by
  have := strContains_middle "" b c
  simpa using this

theorem strContains_right (a b : String) : strContains (a ++ b) b = true := by
  have := strContains_middle a b ""
  simpa using this

/-- C6 counterexample: a failing run (manifest without an `application`
element) terminates with status 1 but its message does not name the
offending path: the claim that every failure message names the path is
false for this failure. -/
theorem failure_message_no_path_counterexample :
    (runMain ⟨some "<manifest />", none⟩).1 = some FailKind.noApplication ∧
    failExitCode FailKind.noApplication ≠ 0 ∧
    strContains
      (failMessage "app/src/main/AndroidManifest.xml"
        "app/src/main/res/xml/network_security_config.xml" FailKind.noApplication)
      "app/src/main/AndroidManifest.xml" = false := by
  refine ⟨by decide, by decide, by decide⟩

/-- C6 amended: every failure terminates with the non-zero status 1; the
messages of the file-related failures (missing manifest, parse error, and
the three I/O failure sites) name the offending path and, where one
exists, the underlying exception; the missing-`application` failure
instead produces a fixed message that names no path. -/
theorem failure_messages_name_paths (mp cfgp exc : String) :
    (∀ k, failExitCode k ≠ 0) ∧
    strContains (failMessage mp cfgp .manifestNotFound) mp = true ∧
    strContains (failMessage mp cfgp (.parseFailed exc)) mp = true ∧
    strContains (failMessage mp cfgp (.parseFailed exc)) exc = true ∧
    strContains (failMessage mp cfgp (.readConfigError exc)) cfgp = true ∧
    strContains (failMessage mp cfgp (.readConfigError exc)) exc = true ∧
    strContains (failMessage mp cfgp (.writeConfigError exc)) cfgp = true ∧
    strContains (failMessage mp cfgp (.writeConfigError exc)) exc = true ∧
    strContains (failMessage mp cfgp (.writeManifestError exc)) mp = true ∧
    strContains (failMessage mp cfgp (.writeManifestError exc)) exc = true ∧
    failMessage mp cfgp .noApplication = NO_APPLICATION_MSG := by
  have key : ∀ a b c : String, strContains ((a ++ b) ++ c) b = true := fun a b c =>
    strContains_middle a b c
  refine ⟨fun k => by simp [failExitCode], ?_, ?_, ?_, ?_, ?_, ?_, ?_, ?_, ?_, rfl⟩
  · exact strContains_right _ mp
  · have := key "Failed to parse Android manifest at " mp (": " ++ exc)
    simpa [failMessage, String.append_assoc] using this
  · exact strContains_right _ exc
  · have := key "Failed to read existing network security config at " cfgp (": " ++ exc)
    simpa [failMessage, String.append_assoc] using this
  · exact strContains_right _ exc
  · have := key "Failed to write network security config to " cfgp (": " ++ exc)
    simpa [failMessage, String.append_assoc] using this
  · exact strContains_right _ exc
  · have := key "Failed to write patched manifest to " mp (": " ++ exc)
    simpa [failMessage, String.append_assoc] using this
  · exact strContains_right _ exc

/-- The minimal generated manifest and its patched form, used as witnesses. -/
def demoManifest : Elem :=
  .mk "manifest" [] none (.cons (Elem.mk "application" [] none .nil none) .nil) none

def demoPatched : Elem :=
  match patchTree demoManifest with
  | .ok t => t
  | .error _ => demoManifest

/-- C5 amended witness: the duplicate-free minimal manifest stays
duplicate-free. -/
theorem no_duplicate_permissions_introduced_witness :
    (permNames demoPatched.children.toList).Nodup :=
  no_duplicate_permissions_introduced demoManifest demoPatched rfl (by decide)

/-! ### Trailing newline (C7) -/

theorem Elem.tail_withChildren (e : Elem) (c : ElemList) :
    (e.withChildren c).tail = e.tail := by cases e; rfl

theorem except_bind_error {e a b : Type} (x : e) (f : a → Except e b) :
    (Except.error x >>= f : Except e b) = .error x := rfl

theorem tail_ensure_permission (m : Elem) (p : String) :
    (ensure_permission m p).tail = m.tail := by
  rw [ensure_permission_eq]
  split
  · rfl
  · exact Elem.tail_withChildren _ _

theorem tail_remove_application_attribute (m : Elem) (n : String) (t' : Elem)
    (h : remove_application_attribute m n = .ok t') : t'.tail = m.tail := by
  simp only [remove_application_attribute] at h
  split at h
  · cases h
  · cases h
    exact Elem.tail_withChildren _ _

theorem tail_ensure_application_attribute (m : Elem) (n v : String) (t' : Elem)
    (h : ensure_application_attribute m n v = .ok t') : t'.tail = m.tail := by
  simp only [ensure_application_attribute] at h
  split at h
  · cases h
  · cases h
    exact Elem.tail_withChildren _ _

theorem tail_indentChildren (space : String) (level : Nat) (e : Elem) :
    (indentChildren space level e).tail = e.tail := by
  cases e
  rfl

theorem tail_indentTree (t : Elem) : (indentTree t).tail = t.tail := by
  rw [indentTree]
  split
  · rfl
  · exact tail_indentChildren _ _ _

theorem parseElem_tail (fuel : Nat) (env : List (String × String)) (cs : List Char)
    (e : Elem) (rest : List Char) (h : parseElem fuel env cs = some (e, rest)) :
    e.tail = none := by
  cases fuel with
  | zero => simp [parseElem] at h
  | succ fuel =>
    cases cs with
    | nil => simp [parseElem] at h
    | cons c cs2 =>
      simp only [parseElem] at h
      by_cases hc : (c == '<') = true
      · rw [if_pos hc] at h
        repeat' split at h
        all_goals simp_all [Elem.tail]
        all_goals (obtain ⟨h1, h2⟩ := h; subst h1; rfl)
      · rw [if_neg hc] at h
        simp at h

theorem parseXML_tail (s : String) (t : Elem) (h : parseXML s = some t) :
    t.tail = none := by
  simp only [parseXML] at h
  cases hp : parseProlog ((normalizeEOL s.data).length + 1) (normalizeEOL s.data) with
  | none => simp only [hp] at h; simp at h
  | some r1 =>
    simp only [hp] at h
    cases hc : parseElem ((normalizeEOL s.data).length + 1) [] r1 with
    | none => simp only [hc] at h; simp at h
    | some pr =>
      obtain ⟨root, r2⟩ := pr
      simp only [hc] at h
      cases he : parseEpilog ((normalizeEOL s.data).length + 1) r2 with
      | none => simp only [he] at h; simp at h
      | some u =>
        simp only [he] at h
        cases h
        exact parseElem_tail _ _ _ _ _ hc

theorem serializeElem_ends (ns : List (String × String)) (x : String) (tag : String)
    (attrib : List (String × String)) (text : Option String) (children : ElemList) :
    ∃ s0, serializeElem ns x (.mk tag attrib text children none) = s0 ++ ">" := by
  simp only [serializeElem, truthy, Bool.false_eq_true, if_false, String.append_empty]
  split
  · exact ⟨_, rfl⟩
  · refine ⟨"<" ++ qn ns tag ++ x ++ attrsString ns attrib ++ " /", ?_⟩
    have h1 : (" /" ++ ">" : String) = " />" := rfl
    simp [String.append_assoc, h1]

/-- The byte content of a successful run ends in `'\n'` and the byte
before it is not another `'\n'`. -/
def endsExactlyOneNL (s : String) : Prop :=
  s.data.getLast? = some '\n' ∧ s.data.dropLast.getLast? ≠ some '\n'

theorem endsExactlyOneNL_addNL (A : String) :
    endsExactlyOneNL (ensureTrailingNewline (A ++ ">")) := by
  have hdata : (A ++ ">").data = A.data ++ ['>'] := String.data_append A ">"
  have hne : ¬((A ++ ">").data = []) := by rw [hdata]; simp
  have hlast : (A ++ ">").data.getLast? = some '>' := by
    rw [hdata]; exact List.getLast?_concat _
  have hnl : ("\n" : String).data = ['\n'] := rfl
  unfold ensureTrailingNewline
  rw [if_neg hne, if_neg (by rw [hlast]; simp)]
  constructor
  · rw [String.data_append, hdata, hnl]
    exact List.getLast?_concat _
  · rw [String.data_append, hdata, hnl, List.dropLast_concat, List.getLast?_concat]
    simp

/-- C7: every successful run rewrites the manifest to a byte string that
ends with exactly one trailing newline byte: the serializer output always
ends in `>` (the root element has no tail), and the post-write step then
appends a single `\n`. -/
theorem output_single_trailing_newline (st st1 : FsState)
    (h : runMain st = (none, st1)) :
    ∃ out, st1.manifest = some out ∧ endsExactlyOneNL out := by
  cases hm : st.manifest with
  | none => simp [runMain, hm] at h
  | some content =>
    cases hp : parseXML content with
    | none => simp [runMain, hm, hp] at h
    | some t =>
      simp only [runMain, hm, hp] at h
      cases hrem : remove_application_attribute
          (ensure_permission (ensure_permission t "android.permission.INTERNET")
            "android.permission.ACCESS_NETWORK_STATE") "usesCleartextTraffic" with
      | error msg => simp only [hrem] at h; simp at h
      | ok t3 =>
        simp only [hrem] at h
        cases hens : ensure_application_attribute t3 "networkSecurityConfig"
            "@xml/network_security_config" with
        | error msg => simp only [hens] at h; simp at h
        | ok t4 =>
          simp only [hens] at h
          injection h with h1 h2
          have htail : t4.tail = none := by
            rw [tail_ensure_application_attribute t3 _ _ t4 hens,
              tail_remove_application_attribute _ _ t3 hrem,
              tail_ensure_permission, tail_ensure_permission]
            exact parseXML_tail content t hp
          have hitail : (indentTree t4).tail = none := by
            rw [tail_indentTree]
            exact htail
          rcases hroot : indentTree t4 with ⟨rt, ra, rx, rc, rtail⟩
          rw [hroot] at hitail
          have hrt : rtail = none := hitail
          subst hrt
          obtain ⟨s0, hs⟩ := serializeElem_ends
            (collectNSElem (Elem.mk rt ra rx rc none) [])
            (xmlnsDecls (collectNSElem (Elem.mk rt ra rx rc none) [])) rt ra rx rc
          have hser : serializeDoc (Elem.mk rt ra rx rc none) =
              (xmlDeclaration ++ s0) ++ ">" := by
            simp only [serializeDoc]
            rw [hs, ← String.append_assoc]
          rw [hroot, hser] at h2
          refine ⟨ensureTrailingNewline ((xmlDeclaration ++ s0) ++ ">"), ?_, ?_⟩
          · rw [← h2]
          · exact endsExactlyOneNL_addNL _

/-- C7 witness: the minimal manifest run succeeds and its output ends in
exactly one newline. -/
theorem output_single_trailing_newline_witness :
    ∃ out, (runMain ⟨some "<manifest><application /></manifest>", none⟩).2.manifest =
      some out ∧ endsExactlyOneNL out :=
  output_single_trailing_newline ⟨some "<manifest><application /></manifest>", none⟩
    (runMain ⟨some "<manifest><application /></manifest>", none⟩).2 (by rfl)

/-! ### Idempotence of the indenter (towards C1) -/

theorem Elem.tail_withTail (e : Elem) (x : Option String) : (e.withTail x).tail = x := by
  cases e; rfl

theorem Elem.withTail_tail_self (e : Elem) : e.withTail e.tail = e := by
  cases e; rfl

theorem Elem.withTail_withTail (e : Elem) (x y : Option String) :
    (e.withTail x).withTail y = e.withTail y := by cases e; rfl

theorem Elem.children_withTail (e : Elem) (x : Option String) :
    (e.withTail x).children = e.children := by cases e; rfl

theorem Elem.tag_withTail (e : Elem) (x : Option String) :
    (e.withTail x).tag = e.tag := by cases e; rfl

theorem Elem.attrib_withTail (e : Elem) (x : Option String) :
    (e.withTail x).attrib = e.attrib := by cases e; rfl

theorem indentChildren_withTail (space : String) (lvl : Nat) (e : Elem) (x : Option String) :
    indentChildren space lvl (e.withTail x) = (indentChildren space lvl e).withTail x := by
  cases e; rfl

theorem tag_indentChildren (space : String) (lvl : Nat) (e : Elem) :
    (indentChildren space lvl e).tag = e.tag := by cases e; rfl

theorem attrib_indentChildren (space : String) (lvl : Nat) (e : Elem) :
    (indentChildren space lvl e).attrib = e.attrib := by cases e; rfl

theorem dedentLast_ne_nil_toList (ind : String) (c : Elem) (l : ElemList) :
    (dedentLast ind (ElemList.cons c l)).toList.isEmpty = false := by
  cases l <;> rfl

theorem indentChildren_children_isEmpty (space : String) (lvl : Nat) (e : Elem) :
    (indentChildren space lvl e).children.toList.isEmpty = e.children.toList.isEmpty := by
  cases e with
  | mk tag attrib text children tail =>
    cases children with
    | nil => rfl
    | cons c rest =>
      show (dedentLast _ (indentLoop _ _ _ (ElemList.cons c rest))).toList.isEmpty = _
      rw [indentLoop]
      rw [dedentLast_ne_nil_toList]
      rfl

theorem foldl_append_all (p : Char → Bool) (l : List String) :
    ∀ init : String, init.data.all p = true → (∀ s ∈ l, s.data.all p = true) →
    (l.foldl (fun r s => r ++ s) init).data.all p = true := by
  induction l with
  | nil => intro init hinit _; exact hinit
  | cons s rest ih =>
    intro init hinit h
    simp only [List.foldl_cons]
    exact ih (init ++ s)
      (by rw [String.data_append, List.all_append, hinit, h s (List.mem_cons_self s rest)]; rfl)
      (fun x hx => h x (List.mem_cons_of_mem s hx))

theorem ws_indentation (space : String) (hs : space.data.all isPySpace = true) (n : Nat) :
    (indentation space n).data.all isPySpace = true := by
  rw [indentation, String.data_append, List.all_append]
  have h1 : ("\n" : String).data.all isPySpace = true := by decide
  have h2 : (String.join (List.replicate n space)).data.all isPySpace = true := by
    rw [String.join]
    exact foldl_append_all _ _ "" (by decide)
      (fun s hs' => by rw [List.eq_of_mem_replicate hs']; exact hs)
  rw [h1, h2]
  rfl

theorem blankOpt_indentation (space : String) (hs : space.data.all isPySpace = true)
    (n : Nat) : blankOpt (some (indentation space n)) = true :=
  ws_indentation space hs n

/-- The per-element body of the `for child in elem` loop. -/
def coreIndent (space : String) (cl : Nat) (c : Elem) : Elem :=
  if c.children.toList.isEmpty then c else indentChildren space cl c

def procIndent (space : String) (cl : Nat) (ci : String) (c : Elem) : Elem :=
  let c1 := coreIndent space cl c
  if blankOpt c1.tail then c1.withTail (some ci) else c1

/-- The last-child fix-up of `dedentLast`. -/
def fixIndent (ind : String) (c : Elem) : Elem :=
  if blankOpt c.tail then c.withTail (some ind) else c

theorem indentLoop_cons (space : String) (cl : Nat) (ci : String) (c : Elem)
    (rest : ElemList) :
    indentLoop space cl ci (.cons c rest) =
      .cons (procIndent space cl ci c) (indentLoop space cl ci rest) := rfl

theorem dedentLast_single (ind : String) (c : Elem) :
    dedentLast ind (.cons c .nil) = .cons (fixIndent ind c) .nil := rfl

theorem dedentLast_cons2 (ind : String) (c d : Elem) (rest : ElemList) :
    dedentLast ind (.cons c (.cons d rest)) = .cons c (dedentLast ind (.cons d rest)) := rfl

theorem indentChildren_eq (space : String) (lvl : Nat) (tag : String)
    (attrib : List (String × String)) (text : Option String) (children : ElemList)
    (tail : Option String) :
    indentChildren space lvl (.mk tag attrib text children tail) =
      .mk tag attrib
        (if blankOpt text then some (indentation space (lvl + 1)) else text)
        (dedentLast (indentation space lvl)
          (indentLoop space (lvl + 1) (indentation space (lvl + 1)) children)) tail := rfl

theorem coreIndent_withTail (space : String) (cl : Nat) (c : Elem) (x : Option String) :
    coreIndent space cl (c.withTail x) = (coreIndent space cl c).withTail x := by
  rw [coreIndent, coreIndent, Elem.children_withTail]
  split
  · rfl
  · exact indentChildren_withTail space cl c x

theorem tag_coreIndent (space : String) (cl : Nat) (c : Elem) :
    (coreIndent space cl c).tag = c.tag := by
  rw [coreIndent]
  split
  · rfl
  · exact tag_indentChildren _ _ _

theorem attrib_coreIndent (space : String) (cl : Nat) (c : Elem) :
    (coreIndent space cl c).attrib = c.attrib := by
  rw [coreIndent]
  split
  · rfl
  · exact attrib_indentChildren _ _ _

theorem children_isEmpty_coreIndent (space : String) (cl : Nat) (c : Elem) :
    (coreIndent space cl c).children.toList.isEmpty = c.children.toList.isEmpty := by
  rw [coreIndent]
  split
  · rfl
  · exact indentChildren_children_isEmpty _ _ _

theorem tag_procIndent (space : String) (cl : Nat) (ci : String) (c : Elem) :
    (procIndent space cl ci c).tag = c.tag := by
  rw [procIndent]
  split
  · rw [Elem.tag_withTail]; exact tag_coreIndent _ _ _
  · exact tag_coreIndent _ _ _

theorem attrib_procIndent (space : String) (cl : Nat) (ci : String) (c : Elem) :
    (procIndent space cl ci c).attrib = c.attrib := by
  rw [procIndent]
  split
  · rw [Elem.attrib_withTail]; exact attrib_coreIndent _ _ _
  · exact attrib_coreIndent _ _ _

theorem indentLoop_nil (space : String) (cl : Nat) (ci : String) :
    indentLoop space cl ci .nil = .nil := rfl

theorem dedentLast_cons_shape (ind : String) (x : Elem) (l : ElemList) :
    ∃ y m, dedentLast ind (.cons x l) = .cons y m := by
  cases l with
  | nil => exact ⟨_, _, rfl⟩
  | cons d rest => exact ⟨x, dedentLast ind (.cons d rest), rfl⟩

theorem fixIndent_blank (ind : String) (y : Elem) (hb : blankOpt y.tail = true) :
    fixIndent ind y = y.withTail (some ind) := by
  simp only [fixIndent]
  rw [if_pos hb]

theorem fixIndent_not_blank (ind : String) (y : Elem) (hb : ¬blankOpt y.tail = true) :
    fixIndent ind y = y := by
  simp only [fixIndent]
  rw [if_neg hb]

theorem procIndent_withTail_blank (space : String) (cl : Nat) (ci ind2 : String) (y : Elem)
    (hcy : coreIndent space cl y = y) (hb : blankOpt (some ind2) = true) :
    procIndent space cl ci (y.withTail (some ind2)) = y.withTail (some ci) := by
  simp only [procIndent]
  rw [coreIndent_withTail, hcy, Elem.tail_withTail, if_pos hb, Elem.withTail_withTail]

mutual

theorem indentChildren_idem (space : String) (hs : space.data.all isPySpace = true)
    (lvl : Nat) (e : Elem) :
    indentChildren space lvl (indentChildren space lvl e) = indentChildren space lvl e := by
  cases e with
  | mk tag attrib text children tail =>
    simp only [indentChildren_eq]
    have htext : (if blankOpt (if blankOpt text then some (indentation space (lvl + 1))
          else text) then some (indentation space (lvl + 1))
        else (if blankOpt text then some (indentation space (lvl + 1)) else text)) =
        (if blankOpt text then some (indentation space (lvl + 1)) else text) := by
      by_cases hb : blankOpt text = true
      · simp [hb, blankOpt_indentation space hs]
      · simp [hb]
    rw [htext,
      loopDedent_idem space hs (lvl + 1) (indentation space (lvl + 1))
        (indentation space lvl) (ws_indentation space hs _) (ws_indentation space hs _)
        children]
termination_by (sizeOf e, 0)

theorem coreIndent_idem (space : String) (hs : space.data.all isPySpace = true)
    (cl : Nat) (c : Elem) :
    coreIndent space cl (coreIndent space cl c) = coreIndent space cl c := by
  by_cases hemp : c.children.toList.isEmpty = true
  · have h1 : coreIndent space cl c = c := by rw [coreIndent, if_pos hemp]
    rw [h1, h1]
  · have h1 : coreIndent space cl c = indentChildren space cl c := by
      rw [coreIndent, if_neg hemp]
    rw [h1, coreIndent,
      if_neg (by rw [indentChildren_children_isEmpty]; exact hemp)]
    exact indentChildren_idem space hs cl c
termination_by (sizeOf c, 1)

theorem procIndent_idem (space : String) (hs : space.data.all isPySpace = true)
    (cl : Nat) (ci : String) (hci : ci.data.all isPySpace = true) (c : Elem) :
    procIndent space cl ci (procIndent space cl ci c) = procIndent space cl ci c := by
  have hcore := coreIndent_idem space hs cl c
  by_cases hb : blankOpt (coreIndent space cl c).tail = true
  · have h1 : procIndent space cl ci c = (coreIndent space cl c).withTail (some ci) := by
      simp only [procIndent]
      rw [if_pos hb]
    rw [h1]
    simp only [procIndent]
    rw [coreIndent_withTail, hcore, Elem.tail_withTail,
      if_pos (show blankOpt (some ci) = true from hci), Elem.withTail_withTail]
  · have h1 : procIndent space cl ci c = coreIndent space cl c := by
      simp only [procIndent]
      rw [if_neg hb]
    rw [h1]
    simp only [procIndent]
    rw [hcore, if_neg hb]
termination_by (sizeOf c, 2)

theorem loopDedent_idem (space : String) (hs : space.data.all isPySpace = true)
    (cl : Nat) (ci ind : String) (hci : ci.data.all isPySpace = true)
    (hind : ind.data.all isPySpace = true) :
    ∀ cs : ElemList,
      dedentLast ind (indentLoop space cl ci
        (dedentLast ind (indentLoop space cl ci cs))) =
      dedentLast ind (indentLoop space cl ci cs)
  | .nil => rfl
  | .cons c .nil => by
    have hcy : coreIndent space cl (procIndent space cl ci c) = procIndent space cl ci c := by
      by_cases hb : blankOpt (coreIndent space cl c).tail = true
      · have h1 : procIndent space cl ci c = (coreIndent space cl c).withTail (some ci) := by
          simp only [procIndent]
          rw [if_pos hb]
        rw [h1, coreIndent_withTail, coreIndent_idem space hs cl c]
      · have h1 : procIndent space cl ci c = coreIndent space cl c := by
          simp only [procIndent]
          rw [if_neg hb]
        rw [h1, coreIndent_idem space hs cl c]
    have hpp := procIndent_idem space hs cl ci hci c
    rw [indentLoop_cons, indentLoop_nil, dedentLast_single, indentLoop_cons, indentLoop_nil,
      dedentLast_single]
    congr 1
    by_cases hb : blankOpt (procIndent space cl ci c).tail = true
    · rw [fixIndent_blank ind _ hb,
        procIndent_withTail_blank space cl ci ind _ hcy hind,
        fixIndent_blank ind _ (by rw [Elem.tail_withTail]; exact hci),
        Elem.withTail_withTail]
    · rw [fixIndent_not_blank ind _ hb, hpp, fixIndent_not_blank ind _ hb]
  | .cons c (.cons d rest) => by
    rw [indentLoop_cons, indentLoop_cons, dedentLast_cons2]
    obtain ⟨y, m, hym⟩ := dedentLast_cons_shape ind (procIndent space cl ci d)
      (indentLoop space cl ci rest)
    rw [hym, indentLoop_cons, indentLoop_cons, dedentLast_cons2,
      procIndent_idem space hs cl ci hci c, ← indentLoop_cons, ← hym, ← indentLoop_cons,
      loopDedent_idem space hs cl ci ind hci hind (.cons d rest)]
termination_by cs => (sizeOf cs, 3)

end

theorem indentTree_idem (t : Elem) : indentTree (indentTree t) = indentTree t := by
  by_cases h : t.children.toList.isEmpty = true
  · have h1 : indentTree t = t := by rw [indentTree, if_pos h]
    rw [h1]
    exact h1
  · have h2 : (indentChildren "    " 0 t).children.toList.isEmpty = false := by
      rw [indentChildren_children_isEmpty]
      simpa using h
    have h1 : indentTree t = indentChildren "    " 0 t := by rw [indentTree, if_neg h]
    rw [h1, indentTree, if_neg (by simp [h2])]
    exact indentChildren_idem "    " (by decide) 0 t

/-! ### Shape preservation by the indenter -/

/-- Two elements with the same tag and attribute dictionary. -/
def shapeEq (x y : Elem) : Prop := x.tag = y.tag ∧ x.attrib = y.attrib

theorem shapeEq_procIndent (space : String) (cl : Nat) (ci : String) (c : Elem) :
    shapeEq (procIndent space cl ci c) c :=
  ⟨tag_procIndent _ _ _ _, attrib_procIndent _ _ _ _⟩

theorem shapeEq_fixIndent (ind : String) (c : Elem) : shapeEq (fixIndent ind c) c := by
  rw [fixIndent]
  split
  · exact ⟨Elem.tag_withTail _ _, Elem.attrib_withTail _ _⟩
  · exact ⟨rfl, rfl⟩

theorem shapeEq_trans {x y z : Elem} (h1 : shapeEq x y) (h2 : shapeEq y z) : shapeEq x z :=
  ⟨h1.1.trans h2.1, h1.2.trans h2.2⟩

theorem shape_dedentLast (ind : String) :
    ∀ cs : ElemList, List.Forall₂ shapeEq (dedentLast ind cs).toList cs.toList
  | .nil => List.Forall₂.nil
  | .cons c .nil => by
    rw [dedentLast_single]
    exact List.Forall₂.cons (shapeEq_fixIndent ind c) List.Forall₂.nil
  | .cons c (.cons d rest) => by
    rw [dedentLast_cons2]
    exact List.Forall₂.cons ⟨rfl, rfl⟩ (shape_dedentLast ind (.cons d rest))

theorem shape_indentLoop (space : String) (cl : Nat) (ci : String) :
    ∀ cs : ElemList, List.Forall₂ shapeEq (indentLoop space cl ci cs).toList cs.toList
  | .nil => List.Forall₂.nil
  | .cons c rest => by
    rw [indentLoop_cons]
    exact List.Forall₂.cons (shapeEq_procIndent space cl ci c)
      (shape_indentLoop space cl ci rest)

theorem forall₂_shapeEq_trans {l1 l2 l3 : List Elem}
    (h1 : List.Forall₂ shapeEq l1 l2) (h2 : List.Forall₂ shapeEq l2 l3) :
    List.Forall₂ shapeEq l1 l3 := by
  induction h1 generalizing l3 with
  | nil => cases h2; exact List.Forall₂.nil
  | cons hxy hrest ih =>
    cases h2 with
    | cons hyz hrest2 => exact List.Forall₂.cons (shapeEq_trans hxy hyz) (ih hrest2)

theorem shape_indentChildren_children (space : String) (lvl : Nat) (e : Elem) :
    List.Forall₂ shapeEq (indentChildren space lvl e).children.toList
      e.children.toList := by
  cases e with
  | mk tag attrib text children tail =>
    rw [indentChildren_eq, Elem.children]
    exact forall₂_shapeEq_trans (shape_dedentLast _ _) (shape_indentLoop _ _ _ children)

theorem forall₂_shapeEq_refl : ∀ l : List Elem, List.Forall₂ shapeEq l l
  | [] => .nil
  | _ :: rest => .cons ⟨rfl, rfl⟩ (forall₂_shapeEq_refl rest)

theorem shape_indentTree_children (t : Elem) :
    List.Forall₂ shapeEq (indentTree t).children.toList t.children.toList := by
  rw [indentTree]
  split
  · exact forall₂_shapeEq_refl _
  · exact shape_indentChildren_children _ _ _

theorem hasPermission_of_shape {l1 l2 : List Elem}
    (h : List.Forall₂ shapeEq l1 l2) (p : String) :
    hasPermission l1 p = hasPermission l2 p := by
  induction h with
  | nil => rfl
  | cons hxy hrest ih =>
    simp only [hasPermission, List.any_cons] at *
    rw [ih, isPermNode, isPermNode, hxy.1, hxy.2]

theorem findApp_of_shape {l1 l2 : List Elem}
    (h : List.Forall₂ shapeEq l1 l2) {a : Elem}
    (hf : l2.find? (fun node => node.tag == "application") = some a) :
    ∃ b, l1.find? (fun node => node.tag == "application") = some b ∧ shapeEq b a := by
  induction h with
  | nil => simp at hf
  | cons hxy hrest ih =>
    rename_i x y l1' l2'
    by_cases hy : (y.tag == "application") = true
    · have hx : (x.tag == "application") = true := by rw [hxy.1]; exact hy
      simp only [List.find?, hy] at hf
      obtain rfl := Option.some_inj.mp hf
      refine ⟨x, ?_, hxy⟩
      simp only [List.find?, hx]
    · have hy2 : (y.tag == "application") = false := by simpa using hy
      have hx2 : (x.tag == "application") = false := by rw [hxy.1]; exact hy2
      simp only [List.find?, hy2] at hf
      obtain ⟨b, hb1, hb2⟩ := ih hf
      refine ⟨b, ?_, hb2⟩
      simp only [List.find?, hx2]
      exact hb1

theorem replaceFirst_eq_self (p : Elem → Bool) (f : Elem → Elem) (cs : List Elem) (b : Elem)
    (hf : cs.find? p = some b) (hfb : f b = b) : replaceFirst p f cs = cs := by
  induction cs with
  | nil => simp at hf
  | cons c rest ih =>
    by_cases hc : p c = true
    · rw [List.find?_cons_of_pos _ hc] at hf
      obtain rfl := Option.some_inj.mp hf
      simp [replaceFirst, hc, hfb]
    · have hc' : p c = false := by simpa using hc
      rw [List.find?_cons_of_neg _ (by simp [hc'])] at hf
      simp [replaceFirst, hc', ih hf]

theorem attribHas_eq_false_of_get_none (a : List (String × String)) (k : String)
    (h : attribGet a k = none) : attribHas a k = false := by
  rw [attribHas]
  cases hf : a.find? (fun p => p.1 == k) with
  | none => rfl
  | some p => simp [attribGet, hf] at h

theorem patch_result_facts (t t' : Elem) (h : patchTree t = .ok t') :
    hasPermission t'.children.toList "android.permission.INTERNET" = true ∧
    hasPermission t'.children.toList "android.permission.ACCESS_NETWORK_STATE" = true ∧
    ∃ b, t'.children.toList.find? (fun node => node.tag == "application") = some b ∧
      attribGet b.attrib (NS_ATTR ++ "networkSecurityConfig") =
        some "@xml/network_security_config" ∧
      attribHas b.attrib (NS_ATTR ++ "usesCleartextTraffic") = false := by
  by_cases hApp : t.children.toList.any isAppNode = true
  · obtain ⟨pre, a, post, hsplit, hpre, ha⟩ := first_split isAppNode _ hApp
    have hres := patch_decomp t pre a post hsplit hpre ha
    rw [hres] at h
    obtain rfl := Except.ok.inj h
    rw [children_toList_withChildren]
    have hIa : isPermNode "android.permission.INTERNET" a = false := isPermNode_app _ _ ha
    have hAa : isPermNode "android.permission.ACCESS_NETWORK_STATE" a = false :=
      isPermNode_app _ _ ha
    refine ⟨?_, ?_, patchedApp a, ?_, patchedApp_nsc a,
      attribHas_eq_false_of_get_none _ _ (patchedApp_uct a)⟩
    · by_cases hI : hasPermission (pre ++ a :: post) "android.permission.INTERNET" = true
      · simp only [hasPermission, List.any_append, List.any_cons, hIa, Bool.false_or,
          Bool.or_eq_true] at hI ⊢
        rcases hI with hI | hI
        · exact Or.inl (Or.inl hI)
        · exact Or.inr (Or.inr hI)
      · have hI0 : hasPermission (pre ++ a :: post) "android.permission.INTERNET" = false := by
          simpa using hI
        have hins : (permInserts (pre ++ a :: post)).any
            (isPermNode "android.permission.INTERNET") = true := by
          simp [permInserts, INTERNET, ACCESS_NETWORK_STATE, hI0, List.any_append,
            isPermNode_newPermNode]
        simp only [hasPermission, List.any_append, Bool.or_eq_true]
        exact Or.inl (Or.inr hins)
    · by_cases hA : hasPermission (pre ++ a :: post)
          "android.permission.ACCESS_NETWORK_STATE" = true
      · simp only [hasPermission, List.any_append, List.any_cons, hAa, Bool.false_or,
          Bool.or_eq_true] at hA ⊢
        rcases hA with hA | hA
        · exact Or.inl (Or.inl hA)
        · exact Or.inr (Or.inr hA)
      · have hA0 : hasPermission (pre ++ a :: post)
            "android.permission.ACCESS_NETWORK_STATE" = false := by
          simpa using hA
        have hins : (permInserts (pre ++ a :: post)).any
            (isPermNode "android.permission.ACCESS_NETWORK_STATE") = true := by
          simp [permInserts, INTERNET, ACCESS_NETWORK_STATE, hA0, List.any_append,
            isPermNode_newPermNode]
        simp only [hasPermission, List.any_append, Bool.or_eq_true]
        exact Or.inl (Or.inr hins)
    · exact find?_decomp _ (pre ++ permInserts (pre ++ a :: post)) _ post
        (fun x hx => by
          rcases List.mem_append.mp hx with hx' | hx'
          · exact hpre x hx'
          · exact permInserts_noapp _ x hx')
        (isAppNode_patchedApp a ha)
  · have hnoapp : ∀ x ∈ t.children.toList, isAppNode x = false :=
      any_false_mem (by simpa using hApp)
    rw [patchTree_noapp t hnoapp] at h
    cases h

theorem patchTree_inv (t u : Elem) (h : patchTree t = .ok u) :
    ∃ t3, remove_application_attribute
        (ensure_permission (ensure_permission t "android.permission.INTERNET")
          "android.permission.ACCESS_NETWORK_STATE") "usesCleartextTraffic" = .ok t3 ∧
      ensure_application_attribute t3 "networkSecurityConfig" "@xml/network_security_config" =
        .ok u := by
  simp only [patchTree] at h
  cases hrem : remove_application_attribute
      (ensure_permission (ensure_permission t "android.permission.INTERNET")
        "android.permission.ACCESS_NETWORK_STATE") "usesCleartextTraffic" with
  | error msg => rw [hrem, except_bind_error] at h; cases h
  | ok t3 =>
    rw [hrem, except_bind_ok] at h
    cases hens : ensure_application_attribute t3 "networkSecurityConfig"
        "@xml/network_security_config" with
    | error msg => rw [hens, except_bind_error] at h; cases h
    | ok t4 =>
      rw [hens, except_bind_ok] at h
      obtain rfl := Except.ok.inj h
      exact ⟨t3, rfl, hens⟩

theorem config_result (current : Option String) :
    (ensure_network_security_config current).1 = some NETWORK_SECURITY_CONFIG := by
  rw [ensure_network_security_config]
  split
  · rename_i hcur
    simpa using hcur
  · rfl

theorem patch_steps_fixpoint (t t' : Elem) (h : patchTree t = .ok t') :
    ensure_permission (indentTree t') "android.permission.INTERNET" = indentTree t' ∧
    ensure_permission (indentTree t') "android.permission.ACCESS_NETWORK_STATE" =
      indentTree t' ∧
    remove_application_attribute (indentTree t') "usesCleartextTraffic" =
      .ok (indentTree t') ∧
    ensure_application_attribute (indentTree t') "networkSecurityConfig"
      "@xml/network_security_config" = .ok (indentTree t') := by
  obtain ⟨hI, hA, b, hfb, hnsc, huct⟩ := patch_result_facts t t' h
  have hshape := shape_indentTree_children t'
  obtain ⟨b', hfb', hsb⟩ := findApp_of_shape hshape hfb
  have hnsc' : attribGet b'.attrib (NS_ATTR ++ "networkSecurityConfig") =
      some "@xml/network_security_config" := by rw [hsb.2]; exact hnsc
  have huct' : attribHas b'.attrib (NS_ATTR ++ "usesCleartextTraffic") = false := by
    rw [hsb.2]; exact huct
  have hremfix : removeAttrFn "usesCleartextTraffic" b' = b' := by
    simp [removeAttrFn, huct']
  have hensfix : ensureAttrFn "networkSecurityConfig" "@xml/network_security_config" b' =
      b' := by
    simp [ensureAttrFn, hnsc']
  refine ⟨ensure_permission_present _ _ ?_, ensure_permission_present _ _ ?_, ?_, ?_⟩
  · rw [hasPermission_of_shape hshape]; exact hI
  · rw [hasPermission_of_shape hshape]; exact hA
  · simp only [remove_application_attribute, hfb']
    rw [replaceFirst_eq_self _ _ _ b' hfb' hremfix, ElemList.ofList_toList,
      Elem.withChildren_children]
  · simp only [ensure_application_attribute, hfb']
    rw [replaceFirst_eq_self _ _ _ b' hfb' hensfix, ElemList.ofList_toList,
      Elem.withChildren_children]

/-- C1 (amended): the unconditional byte-level idempotence claim is false
- a carriage return in element text is written back as a literal `\r`
byte, which the second run's parse turns into `\n` (see the
counterexample below) - but it holds exactly on the runs where serialize
and parse round-trip.  If a run of `main` succeeds - the manifest parses
to `t`, the four tree mutations succeed with result `t`, and the run
rewrites the filesystem state to `st1` - and the written output parses
back to the indented patched tree, then a second run on `st1` succeeds
and leaves `st1` byte-for-byte unchanged: both the manifest file and the
companion network_security_config.xml file. -/
theorem patcher_idempotent (st st1 : FsState) (s : String) (t t' : Elem)
    (hm : st.manifest = some s) (hp : parseXML s = some t)
    (hpatch : patchTree t = .ok t')
    (hrun : runMain st = (none, st1))
    (hrt : parseXML (ensureTrailingNewline (serializeDoc (indentTree t'))) =
      some (indentTree t')) :
    runMain st1 = (none, st1) := by
  obtain ⟨t3, hrem, hens⟩ := patchTree_inv t t' hpatch
  simp only [runMain, hm, hp] at hrun
  simp only [hrem] at hrun
  simp only [hens] at hrun
  injection hrun with h1 h2
  rw [config_result] at h2
  subst h2
  obtain ⟨I1, I2, I3, I4⟩ := patch_steps_fixpoint t t' hpatch
  simp only [runMain, hrt, I1, I2, I3, I4, indentTree_idem, config_result]

def c1Input : String := "<manifest><application /></manifest>"

def c1Tree : Elem :=
  .mk "manifest" [] none (.cons (Elem.mk "application" [] none .nil none) .nil) none

def c1Patched : Elem :=
  match patchTree c1Tree with
  | .ok t => t
  | .error _ => c1Tree

set_option maxRecDepth 100000 in
/-- C1 witness: on the minimal manifest the first run succeeds and a second
run on its output state is the identity. -/
theorem patcher_idempotent_witness :
    runMain (runMain ⟨some c1Input, none⟩).2 = (none, (runMain ⟨some c1Input, none⟩).2) :=
  patcher_idempotent ⟨some c1Input, none⟩ (runMain ⟨some c1Input, none⟩).2 c1Input
    c1Tree c1Patched rfl rfl rfl rfl (by decide)

def crInput : String := "<manifest><application>a&#13;b</application></manifest>"

set_option maxRecDepth 100000 in
/-- C1 counterexample: a carriage-return character reference in the
application element's text defeats byte-level idempotence.  The first run
succeeds and serializes the decoded `\r` as a raw byte (`escape_cdata`
escapes only `&`, `<` and `>`); the second run also succeeds, but its
parse normalizes that byte to `\n`, so the manifest bytes it writes
differ from the first run's output. -/
theorem patcher_not_byte_idempotent :
    (runMain ⟨some crInput, none⟩).1 = none ∧
    (runMain (runMain ⟨some crInput, none⟩).2).1 = none ∧
    (runMain (runMain ⟨some crInput, none⟩).2).2.manifest ≠
      (runMain ⟨some crInput, none⟩).2.manifest := by
  refine ⟨by decide, by decide, by decide⟩
